import Mathlib

/-!
Verification development for the btrfs-progs-ng core: a shallow embedding of
the logical-volume mapping engine (lib/btrfs/btrfsvol), the rebuilt-tree
engine (lib/btrfsprogs/btrfsinspect/rebuildnodes/btrees), and the owner
checks, together with theorems about them.

Addresses (`LogicalAddr`, `PhysicalAddr`, `AddrDelta`) are 64-bit signed
integers in the source; none of the verified algorithms depends on wraparound,
so they are embedded as `Int`.  Device ids, generations, object ids and flag
bitfields are unsigned and embedded as `Nat`.
-/

namespace Btrfs

/-- A qualified physical address: `(device id, physical offset)`
(btrfsvol addr types; the device id is a u64, the offset a signed addr). -/
structure QPA where
  dev : Nat
  addr : Int
deriving DecidableEq, Repr

/-- `QualifiedPhysicalAddr.Cmp`: order first by device id, then by offset. -/
def qpaCmp (a b : QPA) : Int :=
  if a.dev < b.dev then -1
  else if b.dev < a.dev then 1
  else if a.addr < b.addr then -1
  else if b.addr < a.addr then 1
  else 0

/-- logical => []physical (btrfsvol.chunkMapping).  `flags` models
`*BlockGroupFlags` / `containers.Optional[BlockGroupFlags]` (none = unset). -/
structure ChunkMapping where
  laddr : Int
  paddrs : List QPA
  size : Int
  sizeLocked : Bool
  flags : Option Nat
deriving DecidableEq, Repr

/-- physical => logical, per device (btrfsvol.devextMapping). -/
structure DevextMapping where
  paddr : Int
  laddr : Int
  size : Int
  sizeLocked : Bool
  flags : Option Nat
deriving DecidableEq, Repr

/-- `chunkMapping.cmpRange`: -1 if `a` is wholly left of `b`, 1 if wholly
right, 0 if there is some overlap. -/
def chunkCmpRange (a b : ChunkMapping) : Int :=
  if a.laddr + a.size ≤ b.laddr then -1
  else if b.laddr + b.size ≤ a.laddr then 1
  else 0

/-- `devextMapping.cmpRange`: same three-way compare on physical ranges. -/
def devextCmpRange (a b : DevextMapping) : Int :=
  if a.paddr + a.size ≤ b.paddr then -1
  else if b.paddr + b.size ≤ a.paddr then 1
  else 0

/-- Errors surfaced by the mapping engine.  Go returns `error` values (and
panics for the two "should not happen" branches); each constructor names one
return site. -/
inductive VolErr where
  | noDevice
  | chunksDontOverlap
  | chunkSizeLockedConflict
  | chunkFlagsMismatch
  | devextsDontOverlap
  | devextSizeLockedConflict
  | devextLaddrMismatch
  | devextFlagsMismatch
  | multipleStripesNotAllowed
  | panicFlagsSkew
  | panicStripeCountSkew
  | fsckUnknownDevice
  | fsckSkew
deriving DecidableEq, Repr

/-- Sorted duplicate-free insertion of a `QPA` (the Go code collects stripes
into a `map[QualifiedPhysicalAddr]struct{}` and then sorts the keys by `Cmp`;
a sorted set is the canonical result of that). -/
def insertQPA (x : QPA) : List QPA → List QPA
  | [] => [x]
  | a :: rest =>
    if qpaCmp x a < 0 then x :: a :: rest
    else if qpaCmp x a = 0 then a :: rest
    else a :: insertQPA x rest

/-- Canonical sorted duplicate-free list of stripes (map keys + `sort.Slice`). -/
def sortQPAs (l : List QPA) : List QPA := l.foldl (fun acc x => insertQPA x acc) []

/-- The flags-merge loop shared by `chunkMapping.union` and
`devextMapping.union`: the union's flags are the first non-nil contributor's;
any other non-nil contributor must agree, else the merge fails. -/
def mergeFlags : Option Nat → List (Option Nat) → Except VolErr (Option Nat)
  | cur, [] => Except.ok cur
  | cur, none :: rest => mergeFlags cur rest
  | none, some v :: rest => mergeFlags (some v) rest
  | some w, some v :: rest =>
    if w ≠ v then Except.error VolErr.chunkFlagsMismatch
    else mergeFlags (some w) rest

/-- Same loop for devexts (separate only so the error is distinguishable). -/
def mergeFlagsExt : Option Nat → List (Option Nat) → Except VolErr (Option Nat)
  | cur, [] => Except.ok cur
  | cur, none :: rest => mergeFlagsExt cur rest
  | none, some v :: rest => mergeFlagsExt (some v) rest
  | some w, some v :: rest =>
    if w ≠ v then Except.error VolErr.devextFlagsMismatch
    else mergeFlagsExt (some w) rest

/-- `chunkMapping.union(rest...)`: sanity-check overlap, take the hull of the
logical ranges, reject a size-locked contributor whose size differs from the
union's, gather back-projected stripes into a sorted set, and merge flags. -/
def chunkUnion (a : ChunkMapping) (rest : List ChunkMapping) :
    Except VolErr ChunkMapping :=
  if rest.any (fun c => chunkCmpRange a c ≠ 0) then
    Except.error VolErr.chunksDontOverlap
  else
    let chunks := a :: rest
    let beg := chunks.foldl (fun b c => min b c.laddr) a.laddr
    let endv := chunks.foldl (fun e c => max e (c.laddr + c.size)) (a.laddr + a.size)
    let retSize := endv - beg
    if chunks.any (fun c => c.sizeLocked && retSize ≠ c.size) then
      Except.error VolErr.chunkSizeLockedConflict
    else
      let paddrs := sortQPAs (chunks.flatMap (fun c =>
        c.paddrs.map (fun s => QPA.mk s.dev (s.addr + -(c.laddr - beg)))))
      match mergeFlags none (chunks.map (fun c => c.flags)) with
      | Except.error e => Except.error e
      | Except.ok fl =>
        Except.ok { laddr := beg, paddrs := paddrs, size := retSize,
                    sizeLocked := chunks.any (fun c => c.sizeLocked), flags := fl }

/-- The `.LAddr` loop of `devextMapping.union`.  In the source the `first`
flag is initialized to `true` and never cleared, so the `laddr != ret.LAddr`
mismatch branch is dead code and the final `.LAddr` is the last contributor's
back-projected laddr; this embedding reproduces that faithfully (the `first`
argument is passed through unchanged, exactly as the Go loop never updates
it). -/
def extLaddrLoop (beg : Int) : Bool → Int → List DevextMapping → Except VolErr Int
  | _, cur, [] => Except.ok cur
  | first, cur, e :: rest =>
    let la := e.laddr + -(e.paddr - beg)
    if first then extLaddrLoop beg first la rest
    else if la ≠ cur then Except.error VolErr.devextLaddrMismatch
    else extLaddrLoop beg first cur rest

/-- `devextMapping.union(rest...)`: hull of the physical ranges, size-lock
check, the (buggy) laddr agreement loop, and flags merge. -/
def devextUnion (a : DevextMapping) (rest : List DevextMapping) :
    Except VolErr DevextMapping :=
  if rest.any (fun e => devextCmpRange a e ≠ 0) then
    Except.error VolErr.devextsDontOverlap
  else
    let exts := a :: rest
    let beg := exts.foldl (fun b e => min b e.paddr) a.paddr
    let endv := exts.foldl (fun x e => max x (e.paddr + e.size)) (a.paddr + a.size)
    let retSize := endv - beg
    if exts.any (fun e => e.sizeLocked && retSize ≠ e.size) then
      Except.error VolErr.devextSizeLockedConflict
    else
      match extLaddrLoop beg true 0 exts with
      | Except.error e => Except.error e
      | Except.ok la =>
        match mergeFlagsExt none (exts.map (fun e => e.flags)) with
        | Except.error e => Except.error e
        | Except.ok fl =>
          Except.ok { paddr := beg, laddr := la, size := retSize,
                      sizeLocked := exts.any (fun e => e.sizeLocked), flags := fl }

/-- Modelled from the spec: `lib/containers/rbtree.go` is not among the
sources; §4.1 describes an ordered tree keyed by the value's intrinsic total
order (for chunks, `chunkMapping.Compare`, i.e. the `LAddr`), kept
duplicate-free.  The tree is embedded as its in-order value list; keyed
insertion keeps keys unique (an insert at an existing key does not create a
second entry). -/
def rbInsertChunk (v : ChunkMapping) : List ChunkMapping → List ChunkMapping
  | [] => [v]
  | c :: rest =>
    if v.laddr < c.laddr then v :: c :: rest
    else if v.laddr = c.laddr then v :: rest
    else c :: rbInsertChunk v rest

/-- Modelled from the spec: `Delete(Search(chunk.Compare))` removes the entry
whose key (`LAddr`) matches; on the value list this erases the first match. -/
def eraseChunkKey : List ChunkMapping → Int → List ChunkMapping
  | [], _ => []
  | c :: rest, k => if c.laddr = k then rest else c :: eraseChunkKey rest k

/-- Modelled from the spec: keyed insert for the per-device devext tree
(key `PAddr`). -/
def rbInsertExt (v : DevextMapping) : List DevextMapping → List DevextMapping
  | [] => [v]
  | e :: rest =>
    if v.paddr < e.paddr then v :: e :: rest
    else if v.paddr = e.paddr then v :: rest
    else e :: rbInsertExt v rest

/-- Modelled from the spec: keyed delete for the per-device devext tree. -/
def eraseExtKey : List DevextMapping → Int → List DevextMapping
  | [], _ => []
  | e :: rest, k => if e.paddr = k then rest else e :: eraseExtKey rest k

/-- The public unit of `AddMapping` (btrfsvol.Mapping). -/
structure Mapping where
  laddr : Int
  paddr : QPA
  size : Int
  sizeLocked : Bool
  flags : Option Nat
deriving DecidableEq, Repr

/-- The logical-volume mapping engine state (btrfsvol.LogicalVolume):
registered devices, the chunk tree (`logical2physical`) and one devext tree
per registered device (`physical2logical`), each embedded as its in-order
value list. -/
structure LV where
  devs : List Nat
  chunks : List ChunkMapping
  exts : List (Nat × List DevextMapping)
deriving DecidableEq, Repr

/-- The empty engine. -/
def LV.empty : LV := { devs := [], chunks := [], exts := [] }

/-- The devext tree of one device (`lv.physical2logical[dev]`). -/
def extsOf (lv : LV) (dev : Nat) : List DevextMapping :=
  match lv.exts.find? (fun p => p.1 = dev) with
  | some p => p.2
  | none => []

/-- Replace one device's devext tree. -/
def setExts (lv : LV) (dev : Nat) (l : List DevextMapping) : LV :=
  { lv with exts := lv.exts.map (fun p => if p.1 = dev then (dev, l) else p) }

/-- `LogicalVolume.AddPhysicalVolume`: register a device; fails if the id is
taken; creates that device's empty devext tree. -/
def addPhysicalVolume (lv : LV) (id : Nat) : Option VolErr × LV :=
  if id ∈ lv.devs then (some VolErr.noDevice, lv)
  else (none, { lv with devs := lv.devs ++ [id], exts := lv.exts ++ [(id, [])] })

/-- `LogicalVolume.ClearMappings` (followed by the `init()` that every public
entry point performs, which re-creates an empty devext tree per registered
device). -/
def clearMappings (lv : LV) : LV :=
  { lv with chunks := [], exts := lv.devs.map (fun d => (d, [])) }

/-- `BLOCK_GROUP_RAID_MASK` — Modelled from the spec: the flags type's
definition is not among the sources; §3 calls it a bitfield with a
"RAID mask".  The mask covers the RAID-class profile bits of the on-disk
block-group flags (RAID0, RAID1, DUP, RAID10, RAID5, RAID6, RAID1C3,
RAID1C4 = bits 3..10); the low DATA/SYSTEM/METADATA bits are outside it. -/
def blockGroupRaidMask : Nat := 0x7f8

/-- The tail of `addMapping` after the cross-check: dry-run return, the
skip-rewrite optimization when the unions are byte-identical to single
overlaps, and the delete-overlaps/insert-unions rewrite of both trees. -/
def addMappingCommit (lv : LV) (m : Mapping) (dryRun : Bool)
    (newChunk : ChunkMapping) (newExt : DevextMapping)
    (logicalOverlaps : List ChunkMapping) (physicalOverlaps : List DevextMapping) :
    Option VolErr × LV :=
  if dryRun then (none, lv)
  else
    if logicalOverlaps = [newChunk] ∧ physicalOverlaps = [newExt] then (none, lv)
    else
      let chunks1 := logicalOverlaps.foldl (fun acc c => eraseChunkKey acc c.laddr) lv.chunks
      let chunks2 := rbInsertChunk newChunk chunks1
      let extl1 := physicalOverlaps.foldl (fun acc e => eraseExtKey acc e.paddr) (extsOf lv m.paddr.dev)
      let extl2 := rbInsertExt newExt extl1
      (none, setExts { lv with chunks := chunks2 } m.paddr.dev extl2)

/-- The candidate chunk `newChunk` formed from a `Mapping`. -/
def newChunkOf (m : Mapping) : ChunkMapping :=
  { laddr := m.laddr, paddrs := [m.paddr], size := m.size,
    sizeLocked := m.sizeLocked, flags := m.flags }

/-- The candidate devext `newExt` formed from a `Mapping`. -/
def newExtOf (m : Mapping) : DevextMapping :=
  { paddr := m.paddr.addr, laddr := m.laddr, size := m.size,
    sizeLocked := m.sizeLocked, flags := m.flags }

/-- `LogicalVolume.addMapping(m, dryRun)`.  Mirrors the source: device sanity
check; collect `logicalOverlaps` (and their stripe count) by `Subrange` of the
candidate chunk's range; chunk union; collect `physicalOverlaps`; devext
union; the flags lockstep panic; the stripe-count cross-check; the dry-run
return; the skip-rewrite optimization; then delete the overlaps and insert
the two unions.  The pair result carries the error (if any) and the engine
state, which every early return leaves untouched. -/
def addMapping (lv : LV) (m : Mapping) (dryRun : Bool) : Option VolErr × LV :=
  if m.paddr.dev ∉ lv.devs then (some VolErr.noDevice, lv)
  else
    let logicalOverlaps := lv.chunks.filter (fun c => chunkCmpRange (newChunkOf m) c = 0)
    let numOverlappingStripes := (logicalOverlaps.map (fun c => c.paddrs.length)).sum
    match chunkUnion (newChunkOf m) logicalOverlaps with
    | Except.error e => (some e, lv)
    | Except.ok newChunk =>
      let physicalOverlaps :=
        (extsOf lv m.paddr.dev).filter (fun e => devextCmpRange (newExtOf m) e = 0)
      match devextUnion (newExtOf m) physicalOverlaps with
      | Except.error e => (some e, lv)
      | Except.ok newExt =>
        if newChunk.flags ≠ newExt.flags then (some VolErr.panicFlagsSkew, lv)
        else if physicalOverlaps.length = numOverlappingStripes then
          addMappingCommit lv m dryRun newChunk newExt logicalOverlaps physicalOverlaps
        else if physicalOverlaps.length < numOverlappingStripes then
          if (match newChunk.flags with
              | some v => decide (v &&& blockGroupRaidMask = 0)
              | none => false) then
            (some VolErr.multipleStripesNotAllowed, lv)
          else
            addMappingCommit lv m dryRun newChunk newExt logicalOverlaps physicalOverlaps
        else (some VolErr.panicStripeCountSkew, lv)

/-- Set a key in a device-indexed association (creating the entry if absent,
as `physical2logical[stripe.Dev] = new(...)` does in `fsck`). -/
def assocSet (acc : List (Nat × List DevextMapping)) (dev : Nat)
    (l : List DevextMapping) : List (Nat × List DevextMapping) :=
  if acc.any (fun p => p.1 = dev) then
    acc.map (fun p => if p.1 = dev then (dev, l) else p)
  else acc ++ [(dev, l)]

/-- Lookup in a device-indexed association (a missing key reads as the empty
tree, as a nil `*RBTree` does). -/
def assocGet (acc : List (Nat × List DevextMapping)) (dev : Nat) :
    List DevextMapping :=
  match acc.find? (fun p => p.1 = dev) with
  | some p => p.2
  | none => []

/-- The devext `fsck` reconstructs from one stripe of a chunk: it copies
`PAddr`, `LAddr`, `Size` and `Flags`, but not `SizeLocked`. -/
def extOfChunk (c : ChunkMapping) (s : QPA) : DevextMapping :=
  { paddr := s.addr, laddr := c.laddr, size := c.size,
    sizeLocked := false, flags := c.flags }

/-- One stripe of the `fsck` scan: check the stripe's device exists and insert
the reconstructed devext. -/
def fsckStripe (devs : List Nat) (c : ChunkMapping) (acc : List (Nat × List DevextMapping))
    (s : QPA) : Except VolErr (List (Nat × List DevextMapping)) :=
  if s.dev ∉ devs then Except.error VolErr.fsckUnknownDevice
  else
    Except.ok (assocSet acc s.dev (rbInsertExt (extOfChunk c s) (assocGet acc s.dev)))

/-- Fold `fsckStripe` over one chunk's stripes. -/
def fsckChunk (devs : List Nat) (acc : List (Nat × List DevextMapping))
    (c : ChunkMapping) : Except VolErr (List (Nat × List DevextMapping)) :=
  c.paddrs.foldlM (fun a s => fsckStripe devs c a s) acc

/-- `LogicalVolume.fsck`: rebuild the physical-to-logical index from a fresh
scan of the chunk tree, then require it to have the same number of per-device
trees as the maintained one and, device by device, equal contents. -/
def fsck (lv : LV) : Option VolErr :=
  match lv.chunks.foldlM (fun a c => fsckChunk lv.devs a c) [] with
  | Except.error e => some e
  | Except.ok built =>
    if lv.exts.length ≠ built.length then some VolErr.fsckSkew
    else if lv.exts.all (fun p => assocGet built p.1 = p.2) then none
    else some VolErr.fsckSkew

/-- The size-1 chunk probe `chunkMapping{LAddr: laddr, Size: 1}` used by
`Resolve`'s `Search`. -/
def chunkProbe (laddr : Int) : ChunkMapping :=
  { laddr := laddr, paddrs := [], size := 1, sizeLocked := false, flags := none }

/-- The size-1 devext probe `devextMapping{PAddr: paddr, Size: 1}` used by
`UnResolve`'s `Search`. -/
def extProbe (paddr : Int) : DevextMapping :=
  { paddr := paddr, laddr := 0, size := 1, sizeLocked := false, flags := none }

/-- `LogicalVolume.Resolve`: locate the chunk whose range contains `laddr`
(via `Search` with a size-1 probe range); return each stripe advanced by the
offset within the chunk (a set, canonically sorted), and the length from
`laddr` to the chunk's end. -/
def resolve (lv : LV) (laddr : Int) : List QPA × Int :=
  match lv.chunks.find? (fun c => chunkCmpRange (chunkProbe laddr) c = 0) with
  | none => ([], 0)
  | some c =>
    let off := laddr - c.laddr
    (sortQPAs (c.paddrs.map (fun s => QPA.mk s.dev (s.addr + off))), c.size - off)

/-- `LogicalVolume.UnResolve`: locate the devext on `p.dev` whose range
contains `p.addr`; back-project to the logical address (−1 when unmapped). -/
def unResolve (lv : LV) (p : QPA) : Int :=
  match (extsOf lv p.dev).find? (fun e => devextCmpRange (extProbe p.addr) e = 0) with
  | none => -1
  | some e => e.laddr + (p.addr - e.paddr)

/-- Errors of the logical read path. -/
inductive ReadErr where
  | couldNotMap
  | noDevice
  | inconsistentStripes
deriving DecidableEq, Repr

/-- Device contents: byte at a `(device, offset)`. -/
def Disk : Type := Nat → Int → Nat

/-- Read `len` bytes of one device starting at `paddr`. -/
def readDev (disk : Disk) (dev : Nat) (paddr : Int) (len : Nat) : List Nat :=
  (List.range len).map (fun i => disk dev (paddr + i))

/-- The stripe loop of `maybeShortReadAt`: the first stripe is read into the
caller's buffer; every further stripe is read into a fresh buffer and
compared, failing with the inconsistent-stripes error on any difference. -/
def readStripesLoop (lv : LV) (disk : Disk) (len : Nat) :
    List QPA → Bool → List Nat → Except ReadErr (List Nat)
  | [], _, dat => Except.ok dat
  | p :: rest, first, dat =>
    if p.dev ∉ lv.devs then Except.error ReadErr.noDevice
    else
      let buf := readDev disk p.dev p.addr len
      if first then readStripesLoop lv disk len rest false buf
      else if buf ≠ dat then Except.error ReadErr.inconsistentStripes
      else readStripesLoop lv disk len rest false dat

/-- `LogicalVolume.maybeShortReadAt`: resolve `laddr`, fail when unmapped,
clamp the buffer to the chunk remainder, then run the stripe loop. -/
def maybeShortReadAt (lv : LV) (disk : Disk) (datLen : Nat) (laddr : Int) :
    Except ReadErr (List Nat) :=
  let r := resolve lv laddr
  if r.1.length = 0 then Except.error ReadErr.couldNotMap
  else
    let len := if (datLen : Int) > r.2 then r.2.toNat else datLen
    readStripesLoop lv disk len r.1 true []

/-- One public call on the mapping engine (the mutating surface). -/
inductive VolOp where
  | addPV (id : Nat)
  | add (m : Mapping)
  | clear
deriving Repr

/-- Apply one call, keeping the (possibly unchanged) state. -/
def runOp (lv : LV) : VolOp → LV
  | VolOp.addPV id => (addPhysicalVolume lv id).2
  | VolOp.add m => (addMapping lv m false).2
  | VolOp.clear => clearMappings lv

/-- Run a call sequence from the empty engine. -/
def runOps (ops : List VolOp) : LV := ops.foldl runOp LV.empty

/-- Run a bare `AddMapping` sequence (non-dry-run) over a starting state. -/
def runAdds (lv : LV) (ms : List Mapping) : LV :=
  ms.foldl (fun s m => (addMapping s m false).2) lv

/-- Register a device list on the empty engine. -/
def addDevs (devs : List Nat) : LV :=
  devs.foldl (fun s d => (addPhysicalVolume s d).2) LV.empty

/-- Two mappings' logical regions do not overlap (touching allowed). -/
def mapsLogicalDisjoint (a b : Mapping) : Prop :=
  a.laddr + a.size ≤ b.laddr ∨ b.laddr + b.size ≤ a.laddr

/-- Two mappings' physical regions do not overlap when on the same device. -/
def mapsPhysicalDisjoint (a b : Mapping) : Prop :=
  a.paddr.dev = b.paddr.dev →
    (a.paddr.addr + a.size ≤ b.paddr.addr ∨ b.paddr.addr + b.size ≤ a.paddr.addr)

/-- A logical address lies in a chunk's `[laddr, laddr+size)` range. -/
def chunkHas (c : ChunkMapping) (x : Int) : Prop :=
  c.laddr ≤ x ∧ x < c.laddr + c.size

/-- Two chunks' logical ranges are disjoint as point sets. -/
def chunkDisj (a b : ChunkMapping) : Prop := ∀ x, ¬(chunkHas a x ∧ chunkHas b x)

/-- A physical address lies in a devext's `[paddr, paddr+size)` range. -/
def extHas (e : DevextMapping) (x : Int) : Prop :=
  e.paddr ≤ x ∧ x < e.paddr + e.size

/-- Two devexts' physical ranges are disjoint as point sets. -/
def extDisj (a b : DevextMapping) : Prop := ∀ x, ¬(extHas a x ∧ extHas b x)

/-- Strictly increasing chunk keys (the in-order list of a search tree keyed
by `LAddr`). -/
def chunksSorted (l : List ChunkMapping) : Prop :=
  l.Pairwise (fun a b => a.laddr < b.laddr)

/-- Strictly increasing devext keys. -/
def extsSorted (l : List DevextMapping) : Prop :=
  l.Pairwise (fun a b => a.paddr < b.paddr)

/-- Well-formed engine state: each tree's value list is strictly sorted by
its key (true of every red-black-tree state). -/
def LVWF (lv : LV) : Prop :=
  chunksSorted lv.chunks ∧ ∀ dev, extsSorted (extsOf lv dev)

/-! ## The rebuilt-tree engine (rebuildnodes/btrees/tree.go) -/

/-- A rebuilt tree's identity chain: its id, and (unless it is a root of the
forrest) the `ParentGen` offset of its root item plus its parent chain
(`RebuiltTree.ID` / `.ParentGen` / `.Parent`). -/
inductive RTree where
  | top (id : Nat)
  | child (id : Nat) (parentGen : Nat) (parent : RTree)
deriving DecidableEq, Repr

/-- The tree's own id. -/
def RTree.id : RTree → Nat
  | RTree.top i => i
  | RTree.child i _ _ => i

/-- `RebuiltTree.isOwnerOK`: walk up the parent chain; accept when the
current tree's id matches; stop (reject) at a missing parent or when
`gen >= tree.ParentGen`. -/
def isOwnerOK : RTree → Nat → Nat → Bool
  | RTree.top i, owner, _ => owner = i
  | RTree.child i pg p, owner, gen =>
    if owner = i then true
    else if pg ≤ gen then false
    else isOwnerOK p owner gen

/-- The owner test as C1's sentence words it (boundary `gen = parent_gen`
accepted): stated from the spec, for comparison against `isOwnerOK`. -/
def claimOwnerOK : RTree → Nat → Nat → Bool
  | RTree.top i, owner, _ => owner = i
  | RTree.child i pg p, owner, gen =>
    if owner = i then true
    else if gen ≤ pg then claimOwnerOK p owner gen
    else false

/-- Acceptance by the parent-chain walk with the strict generation bound:
either the tree's own id matches (no generation constraint), or the walk may
step to the parent because `gen < parentGen` and the parent accepts. -/
inductive OwnerAccept (owner gen : Nat) : RTree → Prop
  | self (t : RTree) : t.id = owner → OwnerAccept owner gen t
  | step (i pg : Nat) (p : RTree) : gen < pg → OwnerAccept owner gen p →
      OwnerAccept owner gen (RTree.child i pg p)

/-- `RebuiltTree.COWDistance`: hops up the parent chain to `parentID`;
`(0, false)` when the chain ends without a match. -/
def cowDistance : RTree → Nat → Nat × Bool
  | RTree.top i, pid => if pid = i then (0, true) else (0, false)
  | RTree.child i _ p, pid =>
    if pid = i then (0, true)
    else
      let r := cowDistance p pid
      if r.2 then (r.1 + 1, true) else (0, false)

/-- An item key `(object_id, item_type, offset)`. -/
structure Key where
  oid : Nat
  ty : Nat
  off : Nat
deriving DecidableEq, Repr

/-- Lexicographic strict order on keys. -/
def keyLtB (a b : Key) : Bool :=
  if a.oid < b.oid then true
  else if b.oid < a.oid then false
  else if a.ty < b.ty then true
  else if b.ty < a.ty then false
  else decide (a.off < b.off)

/-- `keyio.ItemPtr`: a leaf node address and an item slot in it. -/
structure ItemPtr where
  node : Int
  idx : Nat
deriving DecidableEq, Repr

/-- What the node graph stores per vertex (graph.Node fields the rebuilt
tree engine reads: level, generation, owner, item keys). -/
structure NodeInfo where
  level : Nat
  generation : Nat
  owner : Nat
  items : List Key
deriving DecidableEq, Repr

/-- The node graph: vertices by logical address, and the reverse adjacency
list `EdgesTo` (source nodes of keypointers into a node). -/
structure Graph where
  nodes : List (Int × NodeInfo)
  edgesTo : List (Int × List Int)
deriving Repr

/-- Vertex lookup; a missing address reads as the zero `NodeInfo`, as a Go
map lookup does. -/
def nodeInfo (g : Graph) (a : Int) : NodeInfo :=
  match g.nodes.find? (fun p => p.1 = a) with
  | some p => p.2
  | none => { level := 0, generation := 0, owner := 0, items := [] }

/-- Reverse-edge lookup (empty when absent). -/
def edgesToOf (g : Graph) (a : Int) : List Int :=
  match g.edgesTo.find? (fun p => p.1 = a) with
  | some p => p.2
  | none => []

/-- Sorted duplicate-free insertion of an address. -/
def insInt (x : Int) : List Int → List Int
  | [] => [x]
  | a :: rest =>
    if x < a then x :: a :: rest
    else if x = a then a :: rest
    else a :: insInt x rest

/-- Canonical sorted duplicate-free address list (`maps.SortedKeys`, or a
`containers.Set` read out in order). -/
def sortInts (l : List Int) : List Int := l.foldl (fun acc x => insInt x acc) []

/-- Whether the graph node at `a` passes `isOwnerOK` for tree `t`. -/
def ownerOKNode (g : Graph) (t : RTree) (a : Int) : Bool :=
  isOwnerOK t (nodeInfo g a).owner (nodeInfo g a).generation

/-- Association lookup in a node-to-roots index. -/
def idxLookup (idx : List (Int × List Int)) (a : Int) : List Int :=
  match idx.find? (fun p => p.1 = a) with
  | some p => p.2
  | none => []

/-- `RebuiltTree.indexNode` over a worklist: the memoized DFS that computes,
per node, the set of roots it reaches along owner-OK edges ( `[]` for a
non-owner-OK node, `[node]` for an owner-OK node with no owner-OK incoming
edges).  `fuel` bounds the recursion depth; the callers below supply more
fuel than the graph's node count, which suffices because the source graph is
acyclic after `FinalCheck` (on a cycle the source panics instead). -/
def idxGo (g : Graph) (t : RTree) : Nat → List Int → List (Int × List Int) →
    List (Int × List Int)
  | 0, _, idx => idx
  | Nat.succ _, [], idx => idx
  | Nat.succ f, node :: rest, idx =>
    let idx2 :=
      if (idx.find? (fun p => p.1 = node)).isSome then idx
      else if ¬ ownerOKNode g t node then (node, []) :: idx
      else
        let kps := (edgesToOf g node).filter (fun fr => ownerOKNode g t fr)
        let idx1 := idxGo g t f kps idx
        let collected := kps.foldl (fun acc fr => acc ++ idxLookup idx1 fr) []
        let roots := if collected.isEmpty then [node] else sortInts collected
        (node, roots) :: idx1
    idxGo g t f rest idx2

/-- Fuel bound: total vertices plus total reverse edges. -/
def graphSize (g : Graph) : Nat :=
  g.nodes.length + g.edgesTo.foldl (fun a p => a + p.2.length) 0

/-- `RebuiltTree.leafToRoots`: run the index over every graph node in sorted
order, then keep the level-0 nodes with a non-empty root set.  The fuel is
generous enough that, on the acyclic graphs the source accepts, every node of
the worklist is fully indexed. -/
def leafToRoots (g : Graph) (t : RTree) : List (Int × List Int) :=
  let keys := sortInts (g.nodes.map Prod.fst)
  (idxGo g t ((keys.length + 1) * (graphSize g + 2)) keys []).filter
    (fun p => decide ((nodeInfo g p.1).level = 0) && !p.2.isEmpty)

/-- The mutable per-tree state: accepted roots and attached leaves
(`RebuiltTree.Roots` / `.Leafs`, as sorted sets). -/
structure TState where
  roots : List Int
  leafs : List Int
deriving DecidableEq, Repr

/-- The initial per-tree state (no roots accepted yet). -/
def TState.empty : TState := { roots := [], leafs := [] }

/-- `RebuiltTree.AddRoot`: insert the root; then, over the sorted keys of
`leafToRoots`, attach every leaf that is not yet attached and whose root set
contains the new root, announcing it (its item keys go to `cb_added_item`).
Returns the new state and the attached leaves in announcement order. -/
def addRoot (g : Graph) (t : RTree) (st : TState) (r : Int) : TState × List Int :=
  let roots1 := insInt r st.roots
  let ltr := leafToRoots g t
  let keys := sortInts (ltr.map Prod.fst)
  let step := keys.foldl
    (fun (acc : List Int × List Int) leaf =>
      if leaf ∈ acc.1 ∨ r ∉ idxLookup ltr leaf then acc
      else (insInt leaf acc.1, acc.2 ++ [leaf]))
    (st.leafs, [])
  ({ roots := roots1, leafs := step.1 }, step.2)

/-- A sequence of `AddRoot` calls, concatenating the announced leaves. -/
def runAddRoots (g : Graph) (t : RTree) (st : TState) : List Int → TState × List Int
  | [] => (st, [])
  | r :: rest =>
    let s1 := addRoot g t st r
    let s2 := runAddRoots g t s1.1 rest
    (s2.1, s1.2 ++ s2.2)

/-- Invariant of every reachable per-tree state: the root and leaf sets are
sorted (they are read out of `containers.Set`s), and every leaf whose
`leafToRoots` set meets the accepted roots is attached. -/
def TInv (g : Graph) (t : RTree) (st : TState) : Prop :=
  st.roots.Pairwise (fun a b => a < b) ∧
  st.leafs.Pairwise (fun a b => a < b) ∧
  ∀ leaf ρ, ρ ∈ st.roots → ρ ∈ idxLookup (leafToRoots g t) leaf → leaf ∈ st.leafs

/-- `RebuiltTree.shouldReplace`: smaller COW distance wins, then larger
generation; both equal is the source's panic (`none` here). -/
def shouldReplace (g : Graph) (t : RTree) (oldN newN : Int) : Option Bool :=
  let oldDist := (cowDistance t (nodeInfo g oldN).owner).1
  let newDist := (cowDistance t (nodeInfo g newN).owner).1
  if newDist < oldDist then some true
  else if oldDist < newDist then some false
  else
    let oldGen := (nodeInfo g oldN).generation
    let newGen := (nodeInfo g newN).generation
    if oldGen < newGen then some true
    else if newGen < oldGen then some false
    else none

/-- Keyed store into the sorted item index (replacing an existing entry). -/
def storeKey (k : Key) (v : ItemPtr) : List (Key × ItemPtr) → List (Key × ItemPtr)
  | [] => [(k, v)]
  | (k2, v2) :: rest =>
    if keyLtB k k2 then (k, v) :: (k2, v2) :: rest
    else if k = k2 then (k, v) :: rest
    else (k2, v2) :: storeKey k v rest

/-- Keyed load from the item index. -/
def loadKey (k : Key) (mp : List (Key × ItemPtr)) : Option ItemPtr :=
  (mp.find? (fun p => p.1 = k)).map Prod.snd

/-- The inner loop of `RebuiltTree.items` for one leaf: store each item key,
resolving a duplicate through `shouldReplace` (`none` propagates the source's
duplicate-node panic). -/
def itemsLeaf (g : Graph) (t : RTree) (leaf : Int) :
    Nat → List Key → List (Key × ItemPtr) → Option (List (Key × ItemPtr))
  | _, [], mp => some mp
  | j, k :: rest, mp =>
    match loadKey k mp with
    | none => itemsLeaf g t leaf (j + 1) rest (storeKey k ⟨leaf, j⟩ mp)
    | some oldPtr =>
      match shouldReplace g t oldPtr.node leaf with
      | none => none
      | some true => itemsLeaf g t leaf (j + 1) rest (storeKey k ⟨leaf, j⟩ mp)
      | some false => itemsLeaf g t leaf (j + 1) rest mp

/-- `RebuiltTree.items` over a leaf list: fold the per-leaf loop (the source
memoizes processed leaves across calls; a single pass over a duplicate-free
leaf list builds the same index). -/
def itemsBuild (g : Graph) (t : RTree) :
    List Int → List (Key × ItemPtr) → Option (List (Key × ItemPtr))
  | [], mp => some mp
  | leaf :: rest, mp =>
    match itemsLeaf g t leaf 0 (nodeInfo g leaf).items mp with
    | none => none
    | some mp2 => itemsBuild g t rest mp2

/-- `RebuiltTree.Items`: the index over the attached leaves (sorted). -/
def itemsOf (g : Graph) (t : RTree) (st : TState) : Option (List (Key × ItemPtr)) :=
  itemsBuild g t st.leafs []

/-- `RebuiltTree.PotentialItems`: the index over every leaf `leafToRoots`
knows (sorted keys of that map). -/
def potentialItemsOf (g : Graph) (t : RTree) : Option (List (Key × ItemPtr)) :=
  itemsBuild g t (sortInts ((leafToRoots g t).map Prod.fst)) []

/-! ## Concrete fixtures -/

/-- Engine with device 1 registered. -/
def lvOneDev : LV := (addPhysicalVolume LV.empty 1).2

/-- Engine with devices 1 and 2 registered. -/
def lvTwoDev : LV := (addPhysicalVolume lvOneDev 2).2

/-- C1 and C4 fixture tree: tree 10 whose root item has offset
(parent generation) 5, snapshotted from tree 20. -/
def tree10 : RTree := RTree.child 10 5 (RTree.top 20)

/-- C2: first mapping. -/
def c2m0 : Mapping :=
  { laddr := 0, paddr := ⟨1, 0⟩, size := 0x1000, sizeLocked := false, flags := none }

/-- C2: state after the first mapping. -/
def c2s1 : LV := (addMapping lvOneDev c2m0 false).2

/-- C2: second mapping; overlaps the first physically at a different
alignment, so the two contributors' back-projected laddrs disagree
(0x100 − 0x800 = −0x700 versus 0). -/
def c2m1 : Mapping :=
  { laddr := 0x100, paddr := ⟨1, 0x800⟩, size := 0x1000, sizeLocked := false, flags := none }

/-- C3: a single size-locked mapping. -/
def c3m : Mapping :=
  { laddr := 0, paddr := ⟨1, 0⟩, size := 0x1000, sizeLocked := true, flags := none }

/-- C3: the state after it. -/
def c3s : LV := (addMapping lvOneDev c3m false).2

/-- C3: a single mapping with `SizeLocked` clear, for the amended statement's
witness. -/
def c3ok : Mapping :=
  { laddr := 0, paddr := ⟨1, 0⟩, size := 0x1000, sizeLocked := false, flags := none }

/-- C6: first size-locked mapping of the spec's size-lock-conflict seed. -/
def c6m0 : Mapping :=
  { laddr := 0, paddr := ⟨1, 0⟩, size := 0x1000, sizeLocked := true, flags := none }

/-- C6: the state after it. -/
def c6s1 : LV := (addMapping lvOneDev c6m0 false).2

/-- C6: the conflicting second size-locked mapping. -/
def c6m1 : Mapping :=
  { laddr := 0x800, paddr := ⟨1, 0x800⟩, size := 0x1000, sizeLocked := true, flags := none }

/-- C7: first mapping, carrying the DATA block-group flag (bit 0, outside the
RAID mask). -/
def c7m0 : Mapping :=
  { laddr := 0, paddr := ⟨1, 0⟩, size := 0x1000, sizeLocked := false, flags := some 1 }

/-- C7: second mapping; overlaps the first logically and physically at
different alignments, so the merged chunk gains a second stripe while the
stripe-count cross-check still balances. -/
def c7m1 : Mapping :=
  { laddr := 0x800, paddr := ⟨1, 0x900⟩, size := 0x1000, sizeLocked := false, flags := some 1 }

/-- C7: state after the first mapping. -/
def c7s1 : LV := (addMapping lvOneDev c7m0 false).2

/-- C7: state after the second mapping (which succeeds). -/
def c7s2 : LV := (addMapping c7s1 c7m1 false).2

/-- C4: the shared item key. -/
def c4Key : Key := ⟨100, 1, 0⟩

/-- C4: two orphan leaves, both carrying `c4Key`: leaf 1 owned by the parent
tree 20, leaf 2 owned by tree 10 itself. -/
def c4Graph : Graph :=
  { nodes := [(1, ⟨0, 3, 20, [c4Key]⟩), (2, ⟨0, 3, 10, [c4Key]⟩)],
    edgesTo := [] }

/-- C4: the tree state after `AddRoot(1)` (leaf 1 attached, leaf 2 not). -/
def c4State : TState := (addRoot c4Graph tree10 TState.empty 1).1

/-- C9: a RAID1 mapping on device 1 (flag bit 4 is inside the RAID mask). -/
def c9m0 : Mapping :=
  { laddr := 0, paddr := ⟨1, 0⟩, size := 0x1000, sizeLocked := false, flags := some 0x10 }

/-- C9: its mirror on device 2. -/
def c9m1 : Mapping :=
  { laddr := 0, paddr := ⟨2, 0⟩, size := 0x1000, sizeLocked := false, flags := some 0x10 }

/-- C9: the two-stripe engine state. -/
def c9s : LV := (addMapping (addMapping lvTwoDev c9m0 false).2 c9m1 false).2

/-- The single dev-extent stored per device in `c9s`. -/
def c9ext : DevextMapping :=
  { paddr := 0, laddr := 0, size := 4096, sizeLocked := false, flags := some 16 }

/-- C9: devices whose bytes agree everywhere. -/
def diskAgree : Disk := fun _ _ => 7

/-- C9: devices whose bytes are the device id (the stripes disagree). -/
def diskByDev : Disk := fun d _ => d

/-! ## Theorems -/

theorem addMappingCommit_fst (lv : LV) (m : Mapping) (dr : Bool) (nc : ChunkMapping)
    (ne : DevextMapping) (lo : List ChunkMapping) (po : List DevextMapping) :
    (addMappingCommit lv m dr nc ne lo po).1 = none := by
  unfold addMappingCommit
  repeat' first | rfl | split

theorem addMapping_ok_or_id (lv : LV) (m : Mapping) (dr : Bool) :
    (addMapping lv m dr).1 = none ∨ (addMapping lv m dr).2 = lv := by
  unfold addMapping
  dsimp only
  repeat' first
    | (left; exact addMappingCommit_fst _ _ _ _ _ _ _)
    | (right; rfl)
    | split

/-- C1 (counterexample): at tree 10 (parent generation 5, parent tree 20),
the pair (owner 20, gen 5) sits exactly on the boundary `gen = parent_gen`;
the claim's condition (the `≤` walk, `claimOwnerOK`) accepts it, but the
rebuilt tree's owner test rejects it. -/
theorem c1_boundary_counterexample :
    claimOwnerOK tree10 20 5 = true ∧ isOwnerOK tree10 20 5 = false := by
  decide

/-- C1 (amended): the owner test accepts (owner, gen) in tree T exactly when
T's own id equals owner (no generation constraint), or T's parent chain
reaches a tree whose id equals owner through steps each allowed only by
`gen` being strictly less than the stepped-from tree's parent generation;
the boundary `gen = parent_gen` is rejected. -/
theorem c1_isOwnerOK_characterization (t : RTree) (owner gen : Nat) :
    isOwnerOK t owner gen = true ↔ OwnerAccept owner gen t := by
  induction t with
  | top i =>
    simp only [isOwnerOK, decide_eq_true_eq]
    constructor
    · intro h
      exact OwnerAccept.self (RTree.top i) (by simp [RTree.id, h])
    · intro h
      cases h with
      | self t ht => simpa [RTree.id] using ht.symm
  | child i pg p ih =>
    simp only [isOwnerOK]
    by_cases howner : owner = i
    · simp only [howner, if_pos rfl]
      constructor
      · intro _
        exact OwnerAccept.self (RTree.child i pg p) (by simp [RTree.id])
      · intro _; rfl
    · rw [if_neg howner]
      by_cases hpg : pg ≤ gen
      · rw [if_pos hpg]
        constructor
        · intro h; exact absurd h (by simp)
        · intro h
          cases h with
          | self t ht => exact absurd (by simpa [RTree.id] using ht.symm) howner
          | step i2 pg2 p2 hlt hp => omega
      · rw [if_neg hpg]
        rw [ih]
        constructor
        · intro h
          exact OwnerAccept.step i pg p (by omega) h
        · intro h
          cases h with
          | self t ht => exact absurd (by simpa [RTree.id] using ht.symm) howner
          | step i2 pg2 p2 hlt hp => exact hp

/-- C2 (code behavior at the failing input): the two overlapping dev-extents'
back-projected laddrs disagree (0x100 − 0x800 versus 0), yet `AddMapping`
returns success and applies the merged dev-extent, taking the last
contributor's laddr — the laddr-agreement check of `devextMapping.union` is
dead code because `first` is never cleared. -/
theorem c2_devext_conflict_not_detected :
    ((0x100 : Int) + -(0x800 - 0) ≠ (0 : Int) + -(0 - 0)) ∧
    (addMapping c2s1 c2m1 false).1 = none ∧
    (addMapping c2s1 c2m1 false).2.exts =
      [(1, [{ paddr := 0, laddr := 0, size := 0x1800, sizeLocked := false,
              flags := none }])] ∧
    (addMapping c2s1 c2m1 false).2 ≠ c2s1 := by
  refine ⟨by decide, by decide, by decide, by decide⟩

/-- C6: whenever `addMapping` returns an error (conflicts included), the
engine state is unchanged; in particular, the spec's size-lock-conflict seed
scenario errors on the second call and leaves the first mapping untouched. -/
theorem c6_error_leaves_state_unchanged :
    (∀ (lv : LV) (m : Mapping) (e : VolErr),
        (addMapping lv m false).1 = some e → (addMapping lv m false).2 = lv) ∧
    ((addMapping c6s1 c6m1 false).1 = some VolErr.chunkSizeLockedConflict ∧
      (addMapping c6s1 c6m1 false).2 = c6s1) := by
  constructor
  · intro lv m e h
    rcases addMapping_ok_or_id lv m false with h2 | h2
    · rw [h] at h2; exact absurd h2 (by simp)
    · exact h2
  · exact ⟨by decide, by decide⟩

/-- C6 witness: the general frame property applied at the seed scenario. -/
theorem c6_witness : (addMapping c6s1 c6m1 false).2 = c6s1 :=
  c6_error_leaves_state_unchanged.1 c6s1 c6m1 VolErr.chunkSizeLockedConflict (by decide)

theorem loadKey_cons (k : Key) (a : Key × ItemPtr) (l : List (Key × ItemPtr)) :
    loadKey k (a :: l) = if a.1 = k then some a.2 else loadKey k l := by
  by_cases h : a.1 = k <;> simp [loadKey, List.find?_cons, h]

theorem loadKey_storeKey (k k2 : Key) (v : ItemPtr) (mp : List (Key × ItemPtr)) :
    loadKey k (storeKey k2 v mp) = if k = k2 then some v else loadKey k mp := by
  induction mp with
  | nil =>
    by_cases h : k = k2
    · subst h; simp [storeKey, loadKey]
    · simp [storeKey, loadKey, h, Ne.symm h]
  | cons hd tl ih =>
    obtain ⟨hk, hv⟩ := hd
    simp only [storeKey]
    by_cases h1 : keyLtB k2 hk
    · rw [if_pos h1]
      by_cases h : k = k2
      · subst h; simp [loadKey_cons]
      · simp [loadKey_cons, h, Ne.symm h]
    · rw [if_neg h1]
      by_cases h2 : k2 = hk
      · rw [if_pos h2]
        by_cases h : k = k2
        · subst h; simp [loadKey_cons]
        · subst h2
          simp [loadKey_cons, h, Ne.symm h]
      · rw [if_neg h2]
        by_cases h3 : hk = k
        · have hkk2 : k ≠ k2 := by
            intro he
            exact h2 (by rw [← he]; exact h3.symm)
          simp [loadKey_cons, h3, hkk2]
        · simp [loadKey_cons, h3, ih]

theorem itemsLeaf_keys (g : Graph) (t : RTree) (leaf : Int) (ks : List Key)
    (j : Nat) (mp mp2 : List (Key × ItemPtr))
    (h : itemsLeaf g t leaf j ks mp = some mp2) (k : Key) :
    (loadKey k mp2).isSome ↔ k ∈ ks ∨ (loadKey k mp).isSome := by
  induction ks generalizing j mp with
  | nil =>
    simp only [itemsLeaf, Option.some.injEq] at h
    subst h; simp
  | cons k0 rest ih =>
    simp only [itemsLeaf] at h
    cases hl : loadKey k0 mp with
    | none =>
      simp only [hl] at h
      rw [ih _ _ h]
      rw [loadKey_storeKey]
      by_cases hk : k = k0
      · simp [hk]
      · simp only [List.mem_cons, hk, if_neg hk, false_or]
        tauto
    | some old =>
      simp only [hl] at h
      have hsl : (loadKey k0 mp).isSome := by rw [hl]; rfl
      cases hsr : shouldReplace g t old.node leaf with
      | none =>
        simp only [hsr] at h
        exact Option.noConfusion h
      | some b =>
        simp only [hsr] at h
        cases b with
        | true =>
          simp only at h
          rw [ih _ _ h]
          rw [loadKey_storeKey]
          by_cases hk : k = k0
          · subst hk; simp [hsl]
          · simp only [List.mem_cons, hk, if_neg hk, false_or]
            tauto
        | false =>
          simp only at h
          rw [ih _ _ h]
          by_cases hk : k = k0
          · subst hk; simp [hsl]
          · simp [hk]

theorem itemsBuild_keys (g : Graph) (t : RTree) (L : List Int)
    (mp mp2 : List (Key × ItemPtr)) (h : itemsBuild g t L mp = some mp2) (k : Key) :
    (loadKey k mp2).isSome ↔
      (∃ leaf ∈ L, k ∈ (nodeInfo g leaf).items) ∨ (loadKey k mp).isSome := by
  induction L generalizing mp with
  | nil =>
    simp only [itemsBuild, Option.some.injEq] at h
    subst h; simp
  | cons leaf rest ih =>
    simp only [itemsBuild] at h
    cases hm : itemsLeaf g t leaf 0 (nodeInfo g leaf).items mp with
    | none => simp only [hm] at h; exact Option.noConfusion h
    | some mid =>
      simp only [hm] at h
      rw [ih _ h]
      rw [itemsLeaf_keys g t leaf _ _ _ _ hm]
      constructor
      · rintro (⟨lf, hlf, hk2⟩ | hk2 | hk2)
        · exact Or.inl ⟨lf, List.mem_cons_of_mem _ hlf, hk2⟩
        · exact Or.inl ⟨leaf, List.mem_cons_self _ _, hk2⟩
        · exact Or.inr hk2
      · rintro (⟨lf, hlf, hk2⟩ | hk2)
        · rcases List.mem_cons.mp hlf with hlf | hlf
          · subst hlf; exact Or.inr (Or.inl hk2)
          · exact Or.inl ⟨lf, hlf, hk2⟩
        · exact Or.inr (Or.inr hk2)

theorem mem_insInt (x y : Int) (l : List Int) : x ∈ insInt y l ↔ x = y ∨ x ∈ l := by
  induction l with
  | nil => simp [insInt]
  | cons a rest ih =>
    unfold insInt
    by_cases h1 : y < a
    · rw [if_pos h1]
      simp only [List.mem_cons]
    · rw [if_neg h1]
      by_cases h2 : y = a
      · subst h2
        rw [if_pos rfl]
        simp only [List.mem_cons]
        tauto
      · rw [if_neg h2]
        simp only [List.mem_cons, ih]
        tauto

theorem mem_sortInts_fold (l acc : List Int) (x : Int) :
    x ∈ l.foldl (fun a y => insInt y a) acc ↔ x ∈ acc ∨ x ∈ l := by
  induction l generalizing acc with
  | nil => simp
  | cons a rest ih =>
    simp only [List.foldl_cons, ih, mem_insInt, List.mem_cons]
    tauto

theorem mem_sortInts (x : Int) (l : List Int) : x ∈ sortInts l ↔ x ∈ l := by
  unfold sortInts
  rw [mem_sortInts_fold]
  simp

theorem addRoot_fold_mem (r : Int) (ltr : List (Int × List Int)) (keys : List Int)
    (acc : List Int × List Int) (x : Int)
    (h : x ∈ (keys.foldl
      (fun (acc : List Int × List Int) leaf =>
        if leaf ∈ acc.1 ∨ r ∉ idxLookup ltr leaf then acc
        else (insInt leaf acc.1, acc.2 ++ [leaf])) acc).1) :
    x ∈ acc.1 ∨ x ∈ keys := by
  induction keys generalizing acc with
  | nil => simp at h; exact Or.inl h
  | cons a rest ih =>
    simp only [List.foldl_cons] at h
    by_cases hc : a ∈ acc.1 ∨ r ∉ idxLookup ltr a
    · rw [if_pos hc] at h
      rcases ih _ h with hh | hh
      · exact Or.inl hh
      · exact Or.inr (by simp [hh])
    · rw [if_neg hc] at h
      rcases ih _ h with hh | hh
      · rcases (mem_insInt x a acc.1).mp hh with hh | hh
        · exact Or.inr (by simp [hh])
        · exact Or.inl hh
      · exact Or.inr (by simp [hh])

theorem addRoot_leafs_sub (g : Graph) (t : RTree) (st : TState) (r : Int) (x : Int)
    (h : x ∈ (addRoot g t st r).1.leafs) :
    x ∈ st.leafs ∨ x ∈ sortInts ((leafToRoots g t).map Prod.fst) := by
  unfold addRoot at h
  dsimp only at h
  exact addRoot_fold_mem r (leafToRoots g t) _ _ x h

theorem runAddRoots_leafs_sub (g : Graph) (t : RTree) (rs : List Int) (st : TState)
    (hst : ∀ x ∈ st.leafs, x ∈ sortInts ((leafToRoots g t).map Prod.fst)) :
    ∀ x ∈ (runAddRoots g t st rs).1.leafs,
      x ∈ sortInts ((leafToRoots g t).map Prod.fst) := by
  induction rs generalizing st with
  | nil => simpa [runAddRoots] using hst
  | cons r rest ih =>
    intro x hx
    simp only [runAddRoots] at hx
    refine ih _ ?_ x hx
    intro y hy
    rcases addRoot_leafs_sub g t st r y hy with hh | hh
    · exact hst y hh
    · exact hh

/-- C4 (counterexample): in a graph with two owner-OK orphan leaves both
holding the same key — leaf 1 owned by the parent tree, leaf 2 owned by the
tree itself — after `AddRoot(1)`, `Items` resolves the key to `(leaf 1, 0)`
but `PotentialItems` resolves it to `(leaf 2, 0)` (leaf 2 wins the COW
distance tie-break), so the two indexes do not map the key to the same
pointer. -/
theorem c4_items_pointer_differs :
    itemsOf c4Graph tree10 c4State = some [(c4Key, ⟨1, 0⟩)] ∧
    potentialItemsOf c4Graph tree10 = some [(c4Key, ⟨2, 0⟩)] ∧
    (ItemPtr.mk 1 0) ≠ (ItemPtr.mk 2 0) := by
  refine ⟨by decide, by decide, by decide⟩

/-- C4 (amended): every key present in `Items` of a rebuilt tree (whose
leaves were attached by any `AddRoot` sequence) is also present in
`PotentialItems` — but possibly at a different (leaf, slot), since the
potential index may prefer an unattached leaf through the COW-distance /
generation tie-break. -/
theorem c4_items_subset_potential (g : Graph) (t : RTree) (rs : List Int)
    (idx pidx : List (Key × ItemPtr)) (k : Key) (ptr : ItemPtr)
    (hidx : itemsOf g t (runAddRoots g t TState.empty rs).1 = some idx)
    (hpidx : potentialItemsOf g t = some pidx)
    (hk : loadKey k idx = some ptr) :
    ∃ ptr2, loadKey k pidx = some ptr2 := by
  have h1 : (loadKey k idx).isSome := by rw [hk]; rfl
  rw [itemsBuild_keys g t _ _ _ hidx] at h1
  rcases h1 with ⟨leaf, hleaf, hkey⟩ | h1
  · have hsub : leaf ∈ sortInts ((leafToRoots g t).map Prod.fst) :=
      runAddRoots_leafs_sub g t rs TState.empty (by simp [TState.empty]) leaf hleaf
    have h2 : (loadKey k pidx).isSome := by
      rw [itemsBuild_keys g t _ _ _ hpidx]
      exact Or.inl ⟨leaf, hsub, hkey⟩
    exact ⟨(loadKey k pidx).get h2, Option.eq_some_of_isSome h2⟩
  · simp [loadKey] at h1

/-- C4 witness: the amended subset property at the two-leaf fixture. -/
theorem c4_witness :
    ∃ ptr2, loadKey c4Key [(c4Key, ⟨2, 0⟩)] = some ptr2 :=
  c4_items_subset_potential c4Graph tree10 [1] [(c4Key, ⟨1, 0⟩)] [(c4Key, ⟨2, 0⟩)]
    c4Key ⟨1, 0⟩ (by decide) (by decide) (by decide)

theorem insInt_sorted (y : Int) (l : List Int) (h : l.Pairwise (fun a b => a < b)) :
    (insInt y l).Pairwise (fun a b => a < b) := by
  induction l with
  | nil => simp [insInt]
  | cons a rest ih =>
    rcases List.pairwise_cons.mp h with ⟨ha, hrest⟩
    unfold insInt
    by_cases h1 : y < a
    · rw [if_pos h1]
      refine List.pairwise_cons.mpr ⟨?_, h⟩
      intro b hb
      rcases List.mem_cons.mp hb with hb | hb
      · omega
      · have := ha b hb; omega
    · rw [if_neg h1]
      by_cases h2 : y = a
      · rw [if_pos h2]; exact h
      · rw [if_neg h2]
        refine List.pairwise_cons.mpr ⟨?_, ih hrest⟩
        intro b hb
        rcases (mem_insInt b y rest).mp hb with hb | hb
        · omega
        · exact ha b hb

theorem sortInts_fold_sorted (l acc : List Int) (h : acc.Pairwise (fun a b => a < b)) :
    (l.foldl (fun a y => insInt y a) acc).Pairwise (fun a b => a < b) := by
  induction l generalizing acc with
  | nil => simpa using h
  | cons a rest ih => exact ih _ (insInt_sorted a acc h)

theorem sortInts_sorted (l : List Int) : (sortInts l).Pairwise (fun a b => a < b) :=
  sortInts_fold_sorted l [] (by simp)

theorem sortInts_nodup (l : List Int) : (sortInts l).Nodup :=
  (sortInts_sorted l).imp (fun h => by omega)

theorem insInt_mem_noop (y : Int) (l : List Int)
    (hs : l.Pairwise (fun a b => a < b)) (hm : y ∈ l) : insInt y l = l := by
  induction l with
  | nil => simp at hm
  | cons a rest ih =>
    rcases List.pairwise_cons.mp hs with ⟨ha, hrest⟩
    unfold insInt
    by_cases h1 : y < a
    · exfalso
      rcases List.mem_cons.mp hm with hm | hm
      · omega
      · have := ha y hm; omega
    · rw [if_neg h1]
      by_cases h2 : y = a
      · rw [if_pos h2]
      · rw [if_neg h2]
        have hy : y ∈ rest := by
          rcases List.mem_cons.mp hm with hm | hm
          · exact absurd hm h2
          · exact hm
        rw [ih hrest hy]

theorem idxLookup_mem_keys (ltr : List (Int × List Int)) (leaf r : Int)
    (h : r ∈ idxLookup ltr leaf) : leaf ∈ sortInts (ltr.map Prod.fst) := by
  unfold idxLookup at h
  cases hf : ltr.find? (fun p => p.1 = leaf) with
  | none => rw [hf] at h; simp at h
  | some p =>
    rw [hf] at h
    have hp := List.find?_some hf
    have hmem := List.mem_of_find?_eq_some hf
    rw [mem_sortInts]
    have : p.1 = leaf := by simpa using hp
    subst this
    exact List.mem_map_of_mem Prod.fst hmem

theorem addRoot_fold_skip (r : Int) (ltr : List (Int × List Int))
    (keys : List Int) (lfs ann : List Int)
    (h : ∀ k ∈ keys, k ∈ lfs ∨ r ∉ idxLookup ltr k) :
    keys.foldl
      (fun (acc : List Int × List Int) leaf =>
        if leaf ∈ acc.1 ∨ r ∉ idxLookup ltr leaf then acc
        else (insInt leaf acc.1, acc.2 ++ [leaf])) (lfs, ann) = (lfs, ann) := by
  induction keys with
  | nil => rfl
  | cons a rest ih =>
    simp only [List.foldl_cons]
    rw [if_pos (h a (by simp))]
    exact ih (fun k hk => h k (by simp [hk]))

theorem addRoot_fold_spec (r : Int) (ltr : List (Int × List Int)) (keys : List Int)
    (hnd : keys.Nodup) (lfs ann : List Int) :
    (keys.foldl
      (fun (acc : List Int × List Int) leaf =>
        if leaf ∈ acc.1 ∨ r ∉ idxLookup ltr leaf then acc
        else (insInt leaf acc.1, acc.2 ++ [leaf])) (lfs, ann)).2 =
      ann ++ keys.filter (fun k => decide (r ∈ idxLookup ltr k) && !(decide (k ∈ lfs))) ∧
    ∀ x, x ∈ (keys.foldl
      (fun (acc : List Int × List Int) leaf =>
        if leaf ∈ acc.1 ∨ r ∉ idxLookup ltr leaf then acc
        else (insInt leaf acc.1, acc.2 ++ [leaf])) (lfs, ann)).1 ↔
      x ∈ lfs ∨ (x ∈ keys ∧ r ∈ idxLookup ltr x) := by
  induction keys generalizing lfs ann with
  | nil => simp
  | cons a rest ih =>
    rcases List.nodup_cons.mp hnd with ⟨hna, hndr⟩
    simp only [List.foldl_cons]
    by_cases hc : a ∈ lfs ∨ r ∉ idxLookup ltr a
    · rw [if_pos hc]
      rcases ih hndr lfs ann with ⟨ih2, ih1⟩
      constructor
      · rw [ih2]
        have hpred : (decide (r ∈ idxLookup ltr a) && !(decide (a ∈ lfs))) = false := by
          rcases hc with hc | hc <;> simp [hc]
        simp [List.filter_cons, hpred]
      · intro x
        rw [ih1 x]
        constructor
        · rintro (hh | hh)
          · exact Or.inl hh
          · exact Or.inr ⟨List.mem_cons_of_mem _ hh.1, hh.2⟩
        · rintro (hh | ⟨hx, hr⟩)
          · exact Or.inl hh
          · rcases List.mem_cons.mp hx with hx | hx
            · subst hx
              rcases hc with hc | hc
              · exact Or.inl hc
              · exact absurd hr hc
            · exact Or.inr ⟨hx, hr⟩
    · rw [if_neg hc]
      push_neg at hc
      rcases hc with ⟨hal, har⟩
      rcases ih hndr (insInt a lfs) (ann ++ [a]) with ⟨ih2, ih1⟩
      constructor
      · rw [ih2]
        have hpred : (decide (r ∈ idxLookup ltr a) && !(decide (a ∈ lfs))) = true := by
          simp [hal, har]
        have hfc : List.filter
            (fun k => decide (r ∈ idxLookup ltr k) && !(decide (k ∈ insInt a lfs))) rest =
            List.filter (fun k => decide (r ∈ idxLookup ltr k) && !(decide (k ∈ lfs))) rest := by
          apply List.filter_congr
          intro x hx
          have hxa : x ≠ a := fun he => hna (he ▸ hx)
          have : (x ∈ insInt a lfs) ↔ (x ∈ lfs) := by
            rw [mem_insInt]; simp [hxa]
          simp [this]
        rw [hfc]
        simp [List.filter_cons, hpred]
      · intro x
        rw [ih1 x]
        rw [mem_insInt]
        constructor
        · rintro ((hh | hh) | hh)
          · exact Or.inr ⟨by simp [hh], hh ▸ har⟩
          · exact Or.inl hh
          · exact Or.inr ⟨List.mem_cons_of_mem _ hh.1, hh.2⟩
        · rintro (hh | ⟨hx, hr⟩)
          · exact Or.inl (Or.inr hh)
          · rcases List.mem_cons.mp hx with hx | hx
            · exact Or.inl (Or.inl hx)
            · exact Or.inr ⟨hx, hr⟩

theorem addRoot_fold_leafs_sorted (r : Int) (ltr : List (Int × List Int))
    (keys : List Int) (lfs ann : List Int) (h : lfs.Pairwise (fun a b => a < b)) :
    ((keys.foldl
      (fun (acc : List Int × List Int) leaf =>
        if leaf ∈ acc.1 ∨ r ∉ idxLookup ltr leaf then acc
        else (insInt leaf acc.1, acc.2 ++ [leaf])) (lfs, ann)).1).Pairwise
      (fun a b => a < b) := by
  induction keys generalizing lfs ann with
  | nil => simpa using h
  | cons a rest ih =>
    simp only [List.foldl_cons]
    by_cases hc : a ∈ lfs ∨ r ∉ idxLookup ltr a
    · rw [if_pos hc]; exact ih lfs ann h
    · rw [if_neg hc]; exact ih _ _ (insInt_sorted a lfs h)

theorem addRoot_TInv (g : Graph) (t : RTree) (st : TState) (r : Int)
    (h : TInv g t st) :
    TInv g t (addRoot g t st r).1 ∧
    (∀ x ∈ st.roots, x ∈ (addRoot g t st r).1.roots) ∧
    r ∈ (addRoot g t st r).1.roots ∧
    (∀ x ∈ st.leafs, x ∈ (addRoot g t st r).1.leafs) ∧
    (addRoot g t st r).2.Nodup ∧
    (∀ x ∈ (addRoot g t st r).2, x ∉ st.leafs ∧ x ∈ (addRoot g t st r).1.leafs) := by
  rcases h with ⟨hr, hl, hinv⟩
  have hnd : (sortInts ((leafToRoots g t).map Prod.fst)).Nodup := sortInts_nodup _
  have hspec := addRoot_fold_spec r (leafToRoots g t)
    (sortInts ((leafToRoots g t).map Prod.fst)) hnd st.leafs []
  rcases hspec with ⟨hann, hmem⟩
  unfold addRoot
  dsimp only
  refine ⟨⟨insInt_sorted r st.roots hr,
      addRoot_fold_leafs_sorted r _ _ st.leafs [] hl, ?_⟩, ?_, ?_, ?_, ?_, ?_⟩
  · intro leaf ρ hρ hρl
    rw [hmem leaf]
    rcases (mem_insInt ρ r st.roots).mp hρ with he | he
    · subst he
      exact Or.inr ⟨idxLookup_mem_keys _ _ _ hρl, hρl⟩
    · exact Or.inl (hinv leaf ρ he hρl)
  · intro x hx
    rw [mem_insInt]; exact Or.inr hx
  · rw [mem_insInt]; exact Or.inl rfl
  · intro x hx
    rw [hmem x]; exact Or.inl hx
  · rw [hann]
    simp only [List.nil_append]
    exact List.Nodup.filter _ hnd
  · intro x hx
    rw [hann] at hx
    simp only [List.nil_append, List.mem_filter] at hx
    rcases hx with ⟨hxk, hxp⟩
    simp only [Bool.and_eq_true, decide_eq_true_eq, Bool.not_eq_eq_eq_not,
      Bool.not_true, decide_eq_false_iff_not] at hxp
    refine ⟨hxp.2, ?_⟩
    rw [hmem x]
    exact Or.inr ⟨hxk, hxp.1⟩

theorem addRoot_repeat (g : Graph) (t : RTree) (st : TState) (r : Int)
    (h : TInv g t st) (hr : r ∈ st.roots) : addRoot g t st r = (st, []) := by
  rcases h with ⟨hrs, hls, hinv⟩
  unfold addRoot
  dsimp only
  rw [insInt_mem_noop r st.roots hrs hr]
  rw [addRoot_fold_skip r (leafToRoots g t) _ st.leafs []]
  · intro k hk
    by_cases hkr : r ∈ idxLookup (leafToRoots g t) k
    · exact Or.inl (hinv k r hr hkr)
    · exact Or.inr hkr

theorem runAddRoots_append (g : Graph) (t : RTree) (st : TState) (l1 l2 : List Int) :
    runAddRoots g t st (l1 ++ l2) =
      ((runAddRoots g t (runAddRoots g t st l1).1 l2).1,
        (runAddRoots g t st l1).2 ++ (runAddRoots g t (runAddRoots g t st l1).1 l2).2) := by
  induction l1 generalizing st with
  | nil => simp [runAddRoots]
  | cons a rest ih =>
    simp only [List.cons_append, runAddRoots, List.append_eq]
    rw [ih]
    simp [List.append_assoc]

theorem runAddRoots_inv (g : Graph) (t : RTree) (rs : List Int) (st : TState)
    (h : TInv g t st) :
    TInv g t (runAddRoots g t st rs).1 ∧
    (∀ x ∈ st.roots, x ∈ (runAddRoots g t st rs).1.roots) ∧
    (∀ ρ ∈ rs, ρ ∈ (runAddRoots g t st rs).1.roots) ∧
    (∀ x ∈ st.leafs, x ∈ (runAddRoots g t st rs).1.leafs) ∧
    (runAddRoots g t st rs).2.Nodup ∧
    (∀ x ∈ (runAddRoots g t st rs).2, x ∉ st.leafs ∧ x ∈ (runAddRoots g t st rs).1.leafs) := by
  induction rs generalizing st with
  | nil =>
    simp only [runAddRoots]
    exact ⟨h, fun x hx => hx, by simp, fun x hx => hx, by simp, by simp⟩
  | cons r rest ih =>
    simp only [runAddRoots]
    rcases addRoot_TInv g t st r h with ⟨h1, h2, h3, h4, h5, h6⟩
    rcases ih (addRoot g t st r).1 h1 with ⟨i1, i2, i3, i4, i5, i6⟩
    refine ⟨i1, ?_, ?_, ?_, ?_, ?_⟩
    · intro x hx; exact i2 x (h2 x hx)
    · intro ρ hρ
      rcases List.mem_cons.mp hρ with hρ | hρ
      · subst hρ; exact i2 _ h3
      · exact i3 ρ hρ
    · intro x hx; exact i4 x (h4 x hx)
    · refine List.Nodup.append h5 i5 ?_
      intro x hx1 hx2
      exact (i6 x hx2).1 (h6 x hx1).2
    · intro x hx
      rcases List.mem_append.mp hx with hx | hx
      · rcases h6 x hx with ⟨hn, hy⟩
        exact ⟨hn, i4 x hy⟩
      · rcases i6 x hx with ⟨hn, hy⟩
        exact ⟨fun hc => hn (h4 x hc), hy⟩

/-- C10: re-adding a root already in `Roots` leaves the rebuilt tree's state
(`Roots` and `Leafs`) unchanged and announces nothing; and across any
`AddRoot` sequence from the initial state, the leaves announced through
`cb_added_item` are pairwise distinct, so each leaf's items are announced at
most once. -/
theorem c10_addroot_idempotent_announce_once :
    (∀ (g : Graph) (t : RTree) (rs : List Int) (r : Int), r ∈ rs →
        runAddRoots g t TState.empty (rs ++ [r]) = runAddRoots g t TState.empty rs) ∧
    ∀ (g : Graph) (t : RTree) (rs : List Int),
        (runAddRoots g t TState.empty rs).2.Nodup := by
  have hinv0 : ∀ (g : Graph) (t : RTree), TInv g t TState.empty := by
    intro g t
    exact ⟨by simp [TState.empty], by simp [TState.empty], by simp [TState.empty]⟩
  constructor
  · intro g t rs r hr
    rw [runAddRoots_append]
    rcases runAddRoots_inv g t rs TState.empty (hinv0 g t) with ⟨h1, _, h3, _, _, _⟩
    have hrep := addRoot_repeat g t (runAddRoots g t TState.empty rs).1 r h1 (h3 r hr)
    simp only [runAddRoots, hrep]
    simp

  · intro g t rs
    exact (runAddRoots_inv g t rs TState.empty (hinv0 g t)).2.2.2.2.1

/-- C10 witness: re-adding root 1 in the two-leaf fixture changes nothing,
and the announcements of the doubled sequence are duplicate-free. -/
theorem c10_witness :
    runAddRoots c4Graph tree10 TState.empty [1, 1] =
      runAddRoots c4Graph tree10 TState.empty [1] ∧
    (runAddRoots c4Graph tree10 TState.empty [1, 1]).2.Nodup :=
  ⟨c10_addroot_idempotent_announce_once.1 c4Graph tree10 [1] 1 (by decide),
    c10_addroot_idempotent_announce_once.2 c4Graph tree10 [1, 1]⟩

theorem qpaCmp_eq_zero_iff (a b : QPA) : qpaCmp a b = 0 ↔ a = b := by
  obtain ⟨ad, aa⟩ := a
  obtain ⟨bd, ba⟩ := b
  simp only [qpaCmp, QPA.mk.injEq]
  split_ifs with h1 h2 h3 h4
  · exact ⟨fun hh => absurd hh (by decide), fun hh => by omega⟩
  · exact ⟨fun hh => absurd hh (by decide), fun hh => by omega⟩
  · exact ⟨fun hh => absurd hh (by decide), fun hh => by omega⟩
  · exact ⟨fun hh => absurd hh (by decide), fun hh => by omega⟩
  · exact ⟨fun _ => ⟨by omega, by omega⟩, fun _ => rfl⟩

theorem mem_insertQPA (x y : QPA) (l : List QPA) :
    x ∈ insertQPA y l ↔ x = y ∨ x ∈ l := by
  induction l with
  | nil => simp [insertQPA]
  | cons a rest ih =>
    unfold insertQPA
    by_cases h1 : qpaCmp y a < 0
    · rw [if_pos h1]
      simp only [List.mem_cons]
    · rw [if_neg h1]
      by_cases h2 : qpaCmp y a = 0
      · rw [if_pos h2]
        have : y = a := (qpaCmp_eq_zero_iff y a).mp h2
        subst this
        simp only [List.mem_cons]
        tauto
      · rw [if_neg h2]
        simp only [List.mem_cons, ih]
        tauto

theorem mem_sortQPAs_fold (l acc : List QPA) (x : QPA) :
    x ∈ l.foldl (fun a y => insertQPA y a) acc ↔ x ∈ acc ∨ x ∈ l := by
  induction l generalizing acc with
  | nil => simp
  | cons a rest ih =>
    simp only [List.foldl_cons, ih, mem_insertQPA, List.mem_cons]
    tauto

theorem mem_sortQPAs (x : QPA) (l : List QPA) : x ∈ sortQPAs l ↔ x ∈ l := by
  unfold sortQPAs
  rw [mem_sortQPAs_fold]
  simp

theorem extDisj_symm (a b : DevextMapping) (h : extDisj a b) : extDisj b a := by
  intro x hx
  exact h x ⟨hx.2, hx.1⟩

theorem chunkCmpRange_probe (laddr : Int) (c : ChunkMapping) :
    chunkCmpRange (chunkProbe laddr) c = 0 ↔
      c.laddr ≤ laddr ∧ laddr < c.laddr + c.size := by
  simp only [chunkCmpRange, chunkProbe]
  split_ifs with h1 h2
  · exact ⟨fun hh => absurd hh (by decide), fun hh => by omega⟩
  · exact ⟨fun hh => absurd hh (by decide), fun hh => by omega⟩
  · exact ⟨fun _ => by constructor <;> omega, fun _ => rfl⟩

theorem devextCmpRange_probe (paddr : Int) (e : DevextMapping) :
    devextCmpRange (extProbe paddr) e = 0 ↔
      e.paddr ≤ paddr ∧ paddr < e.paddr + e.size := by
  simp only [devextCmpRange, extProbe]
  split_ifs with h1 h2
  · exact ⟨fun hh => absurd hh (by decide), fun hh => by omega⟩
  · exact ⟨fun hh => absurd hh (by decide), fun hh => by omega⟩
  · exact ⟨fun _ => by constructor <;> omega, fun _ => rfl⟩

/-- C8: whenever each chunk stripe is backed by a dev-extent that covers it
and back-projects to the chunk's laddr, and the per-device dev-extents are
range-disjoint, every qualified physical address that `Resolve(laddr)`
returns satisfies `UnResolve(p) = laddr`. -/
theorem c8_unresolve_of_resolve (lv : LV) (laddr : Int)
    (hwf : ∀ dev, (extsOf lv dev).Pairwise extDisj)
    (hback : ∀ c ∈ lv.chunks, ∀ s ∈ c.paddrs, ∃ e ∈ extsOf lv s.dev,
        e.paddr ≤ s.addr ∧ s.addr + c.size ≤ e.paddr + e.size ∧
        e.laddr + (s.addr - e.paddr) = c.laddr) :
    ∀ p ∈ (resolve lv laddr).1, unResolve lv p = laddr := by
  intro p hp
  unfold resolve at hp
  cases hfc : lv.chunks.find? (fun c => chunkCmpRange (chunkProbe laddr) c = 0) with
  | none => simp only [hfc] at hp; simp at hp
  | some c =>
    simp only [hfc] at hp
    have hcmem : c ∈ lv.chunks := List.mem_of_find?_eq_some hfc
    have hcin : c.laddr ≤ laddr ∧ laddr < c.laddr + c.size := by
      have := List.find?_some hfc
      rw [← chunkCmpRange_probe]
      simpa using this
    rw [mem_sortQPAs] at hp
    rcases List.mem_map.mp hp with ⟨s, hs, rfl⟩
    rcases hback c hcmem s hs with ⟨e, hemem, he1, he2, he3⟩
    have hcontains : e.paddr ≤ s.addr + (laddr - c.laddr) ∧
        s.addr + (laddr - c.laddr) < e.paddr + e.size := by omega
    unfold unResolve
    dsimp only
    cases hfe : (extsOf lv s.dev).find? (fun e2 =>
        devextCmpRange (extProbe (s.addr + (laddr - c.laddr))) e2 = 0) with
    | none =>
      exfalso
      have hno := List.find?_eq_none.mp hfe e hemem
      simp only [decide_eq_true_eq] at hno
      rw [devextCmpRange_probe] at hno
      exact hno ⟨hcontains.1, hcontains.2⟩
    | some e2 =>
      have he2mem : e2 ∈ extsOf lv s.dev := List.mem_of_find?_eq_some hfe
      have he2in : e2.paddr ≤ s.addr + (laddr - c.laddr) ∧
          s.addr + (laddr - c.laddr) < e2.paddr + e2.size := by
        have := List.find?_some hfe
        rw [← devextCmpRange_probe]
        simpa using this
      have heq : e2 = e := by
        by_contra hne
        have hd := List.Pairwise.forall
          (fun a b (h : extDisj a b) => extDisj_symm a b h) (hwf s.dev) he2mem hemem hne
        exact hd (s.addr + (laddr - c.laddr))
          ⟨⟨he2in.1, he2in.2⟩, ⟨hcontains.1, hcontains.2⟩⟩
      subst heq
      simp only [hfe]
      omega

/-- C8 witness: C8 applied at the two-stripe RAID1 state, logical address
0x800, evaluated at both returned stripes. -/
theorem c8_witness :
    unResolve c9s ⟨1, 0x800⟩ = 0x800 ∧ unResolve c9s ⟨2, 0x800⟩ = 0x800 := by
  have hwf : ∀ dev, (extsOf c9s dev).Pairwise extDisj := by
    intro dev
    unfold extsOf
    cases hf : c9s.exts.find? (fun p => p.1 = dev) with
    | none => simp
    | some p =>
      have hmem := List.mem_of_find?_eq_some hf
      have hp : p = (1, [c9ext]) ∨ p = (2, [c9ext]) := by
        have hx : c9s.exts = [(1, [c9ext]), (2, [c9ext])] := by decide
        rw [hx] at hmem
        simpa using hmem
      rcases hp with hp | hp <;> (rw [hp]; simp)
  have h := c8_unresolve_of_resolve c9s 0x800 hwf (by decide)
  exact ⟨h ⟨1, 0x800⟩ (by decide), h ⟨2, 0x800⟩ (by decide)⟩

theorem readLoop_false (lv : LV) (disk : Disk) (n : Nat) (rest : List QPA)
    (dat : List Nat) (hdev : ∀ p ∈ rest, p.dev ∈ lv.devs) :
    readStripesLoop lv disk n rest false dat =
      (if ∀ q ∈ rest, readDev disk q.dev q.addr n = dat then Except.ok dat
        else Except.error ReadErr.inconsistentStripes) := by
  induction rest with
  | nil => simp [readStripesLoop]
  | cons q rest ih =>
    have hqdev : ¬ (q.dev ∉ lv.devs) := not_not_intro (hdev q (by simp))
    unfold readStripesLoop
    rw [if_neg hqdev]
    dsimp only
    by_cases hq : readDev disk q.dev q.addr n = dat
    · rw [if_neg (not_not_intro hq)]
      rw [ih (fun p hp => hdev p (by simp [hp]))]
      by_cases hall : ∀ p ∈ rest, readDev disk p.dev p.addr n = dat
      · have hcons : ∀ p ∈ q :: rest, readDev disk p.dev p.addr n = dat := by
          intro p hp
          rcases List.mem_cons.mp hp with hp | hp
          · subst hp; exact hq
          · exact hall p hp
        rw [if_pos hall, if_pos hcons]
        rfl
      · have hncons : ¬ ∀ p ∈ q :: rest, readDev disk p.dev p.addr n = dat := by
          intro hc
          exact hall fun p hp => hc p (by simp [hp])
        rw [if_neg hall, if_neg hncons]
        rfl
    · rw [if_pos hq]
      have hncons : ¬ ∀ p ∈ q :: rest, readDev disk p.dev p.addr n = dat := by
        intro hc
        exact hq (hc q (by simp))
      rw [if_neg hncons]
      rfl

/-- C9: for a read whose address resolves to at least two stripes (all on
registered devices), the short read returns the inconsistent-stripes error
exactly when two stripes' covered bytes differ, and returns the common bytes
(those of the first stripe) with no error when all stripes agree. -/
theorem c9_read_consistency (lv : LV) (disk : Disk) (datLen : Nat) (laddr : Int)
    (p0 : QPA) (rest : List QPA) (n : Nat)
    (hps : (resolve lv laddr).1 = p0 :: rest)
    (hlen : rest ≠ [])
    (hdev : ∀ p ∈ p0 :: rest, p.dev ∈ lv.devs)
    (hn : n = if (datLen : Int) > (resolve lv laddr).2 then (resolve lv laddr).2.toNat
      else datLen) :
    (maybeShortReadAt lv disk datLen laddr = Except.error ReadErr.inconsistentStripes ↔
      ¬ ∀ p ∈ p0 :: rest, ∀ q ∈ p0 :: rest,
          readDev disk p.dev p.addr n = readDev disk q.dev q.addr n) ∧
    ((∀ p ∈ p0 :: rest, ∀ q ∈ p0 :: rest,
          readDev disk p.dev p.addr n = readDev disk q.dev q.addr n) →
      maybeShortReadAt lv disk datLen laddr =
        Except.ok (readDev disk p0.dev p0.addr n)) := by
  have hagree : (∀ p ∈ p0 :: rest, ∀ q ∈ p0 :: rest,
      readDev disk p.dev p.addr n = readDev disk q.dev q.addr n) ↔
      ∀ q ∈ rest, readDev disk q.dev q.addr n = readDev disk p0.dev p0.addr n := by
    constructor
    · intro h q hq
      exact h q (by simp [hq]) p0 (by simp)
    · intro h p hp q hq
      have hval : ∀ x ∈ p0 :: rest, readDev disk x.dev x.addr n =
          readDev disk p0.dev p0.addr n := by
        intro x hx
        rcases List.mem_cons.mp hx with hx | hx
        · subst hx; rfl
        · exact h x hx
      rw [hval p hp, hval q hq]
  have hrun : maybeShortReadAt lv disk datLen laddr =
      readStripesLoop lv disk n (p0 :: rest) true [] := by
    unfold maybeShortReadAt
    dsimp only
    rw [hps]
    rw [if_neg (by simp)]
    rw [hn]
  have hstep : readStripesLoop lv disk n (p0 :: rest) true [] =
      readStripesLoop lv disk n rest false (readDev disk p0.dev p0.addr n) := by
    simp only [readStripesLoop]
    rw [if_neg (not_not_intro (hdev p0 (by simp)))]
    simp
  have hloop := readLoop_false lv disk n rest (readDev disk p0.dev p0.addr n)
    (fun p hp => hdev p (by simp [hp]))
  rw [hrun, hstep, hloop]
  constructor
  · rw [hagree]
    by_cases hall : ∀ q ∈ rest, readDev disk q.dev q.addr n =
        readDev disk p0.dev p0.addr n
    · rw [if_pos hall]
      exact ⟨fun hcontra => Except.noConfusion hcontra, fun hcontra => absurd hall hcontra⟩
    · rw [if_neg hall]
      exact ⟨fun _ => hall, fun _ => rfl⟩
  · rw [hagree]
    intro hall
    rw [if_pos hall]

/-- C9 witness: C9 applied at the two-stripe RAID1 state with agreeing
devices. -/
theorem c9_witness :
    (maybeShortReadAt c9s diskAgree 4 0x800 = Except.error ReadErr.inconsistentStripes ↔
      ¬ ∀ p ∈ [QPA.mk 1 0x800, QPA.mk 2 0x800], ∀ q ∈ [QPA.mk 1 0x800, QPA.mk 2 0x800],
          readDev diskAgree p.dev p.addr 4 = readDev diskAgree q.dev q.addr 4) ∧
    ((∀ p ∈ [QPA.mk 1 0x800, QPA.mk 2 0x800], ∀ q ∈ [QPA.mk 1 0x800, QPA.mk 2 0x800],
          readDev diskAgree p.dev p.addr 4 = readDev diskAgree q.dev q.addr 4) →
      maybeShortReadAt c9s diskAgree 4 0x800 = Except.ok (readDev diskAgree 1 0x800 4)) :=
  c9_read_consistency c9s diskAgree 4 0x800 (QPA.mk 1 0x800) [QPA.mk 2 0x800] 4
    (by decide) (by decide) (by decide) (by decide)

theorem foldl_min_spec {α : Type} (f : α → Int) (l : List α) (init : Int) :
    (l.foldl (fun b c => min b (f c)) init ≤ init ∧
      ∀ c ∈ l, l.foldl (fun b c => min b (f c)) init ≤ f c) ∧
    (l.foldl (fun b c => min b (f c)) init = init ∨
      ∃ c ∈ l, l.foldl (fun b c => min b (f c)) init = f c) := by
  induction l generalizing init with
  | nil => simp
  | cons a rest ih =>
    simp only [List.foldl_cons]
    rcases ih (min init (f a)) with ⟨⟨hle, hall⟩, hatt⟩
    refine ⟨⟨by omega, ?_⟩, ?_⟩
    · intro c hc
      rcases List.mem_cons.mp hc with hc | hc
      · subst hc; omega
      · exact hall c hc
    · rcases hatt with hatt | ⟨c, hc, hatt⟩
      · rcases le_or_lt init (f a) with hmin | hmin
        · exact Or.inl (hatt.trans (min_eq_left hmin))
        · exact Or.inr ⟨a, by simp, hatt.trans (min_eq_right (by omega))⟩
      · exact Or.inr ⟨c, by simp [hc], hatt⟩

theorem foldl_max_spec {α : Type} (f : α → Int) (l : List α) (init : Int) :
    (init ≤ l.foldl (fun b c => max b (f c)) init ∧
      ∀ c ∈ l, f c ≤ l.foldl (fun b c => max b (f c)) init) ∧
    (l.foldl (fun b c => max b (f c)) init = init ∨
      ∃ c ∈ l, l.foldl (fun b c => max b (f c)) init = f c) := by
  induction l generalizing init with
  | nil => simp
  | cons a rest ih =>
    simp only [List.foldl_cons]
    rcases ih (max init (f a)) with ⟨⟨hle, hall⟩, hatt⟩
    refine ⟨⟨by omega, ?_⟩, ?_⟩
    · intro c hc
      rcases List.mem_cons.mp hc with hc | hc
      · subst hc; omega
      · exact hall c hc
    · rcases hatt with hatt | ⟨c, hc, hatt⟩
      · rcases le_or_lt (f a) init with hmax | hmax
        · exact Or.inl (hatt.trans (max_eq_left hmax))
        · exact Or.inr ⟨a, by simp, hatt.trans (max_eq_right (by omega))⟩
      · exact Or.inr ⟨c, by simp [hc], hatt⟩

theorem chunkDisj_symm (a b : ChunkMapping) (h : chunkDisj a b) : chunkDisj b a := by
  intro x hx
  exact h x ⟨hx.2, hx.1⟩

theorem chunkHas_overlap (c d : ChunkMapping) (x : Int)
    (hc : chunkHas c x) (hd : chunkHas d x) : chunkCmpRange c d = 0 := by
  rcases hc with ⟨h1, h2⟩
  rcases hd with ⟨h3, h4⟩
  unfold chunkCmpRange
  rw [if_neg (by omega), if_neg (by omega)]

/-- The union hull of a candidate and its overlaps is covered by the members:
any point between the folded min laddr and the folded max end lies in some
member's range. -/
theorem chunk_hull_mem (N : ChunkMapping) (O : List ChunkMapping)
    (hover : ∀ c ∈ O, chunkCmpRange N c = 0) (x : Int)
    (hx1 : (N :: O).foldl (fun b c => min b c.laddr) N.laddr ≤ x)
    (hx2 : x < (N :: O).foldl (fun e c => max e (c.laddr + c.size)) (N.laddr + N.size)) :
    ∃ c ∈ N :: O, chunkHas c x := by
  by_contra hno
  push_neg at hno
  have hdich : ∀ m ∈ N :: O, x < m.laddr ∨ m.laddr + m.size ≤ x := by
    intro m hm
    have := hno m hm
    unfold chunkHas at this
    omega
  rcases (foldl_min_spec (fun c => c.laddr) (N :: O) N.laddr).2 with hatt | ⟨m0, hm0, hatt⟩
  all_goals rcases (foldl_max_spec (fun c => c.laddr + c.size) (N :: O)
    (N.laddr + N.size)).2 with hatt2 | ⟨m1, hm1, hatt2⟩
  -- in every case, produce a member m0 with m0.laddr ≤ x and a member m1
  -- with x < m1.laddr + m1.size, then contradict via the overlap facts
  ·
    have hN1 : N.laddr ≤ x := by omega
    have hN2 : x < N.laddr + N.size := by omega
    rcases hdich N (by simp) with h | h <;> omega
  ·
    have hN1 : N.laddr ≤ x := by omega
    have hm1x : x < m1.laddr + m1.size := by omega
    rcases hdich N (by simp) with hn | hn
    · omega
    · rcases List.mem_cons.mp hm1 with he | he
      · subst he; rcases hdich m1 (by simp) with h | h <;> omega
      · have hov := hover m1 he
        unfold chunkCmpRange at hov
        rcases hdich m1 hm1 with h | h
        · -- x < m1.laddr; overlap gives m1.laddr < N.laddr + N.size ≤ x
          split at hov
          · omega
          · split at hov
            · omega
            · omega
        · omega
  ·
    have hm0x : m0.laddr ≤ x := by omega
    have hN2 : x < N.laddr + N.size := by omega
    rcases hdich N (by simp) with hn | hn
    · rcases List.mem_cons.mp hm0 with he | he
      · subst he; omega
      · have hov := hover m0 he
        unfold chunkCmpRange at hov
        rcases hdich m0 hm0 with h | h
        · omega
        · split at hov
          · omega
          · split at hov
            · omega
            · omega
    · omega
  ·
    have hm0x : m0.laddr ≤ x := by omega
    have hm1x : x < m1.laddr + m1.size := by omega
    have hm0e : m0.laddr + m0.size ≤ x := by
      rcases hdich m0 hm0 with h | h <;> omega
    have hm1l : x < m1.laddr := by
      rcases hdich m1 hm1 with h | h <;> omega
    rcases hdich N (by simp) with hn | hn
    · -- x < N.laddr: m0 cannot be N, so m0 overlaps N: m0.end > N.laddr > x
      rcases List.mem_cons.mp hm0 with he | he
      · subst he; omega
      · have hov := hover m0 he
        unfold chunkCmpRange at hov
        split at hov
        · omega
        · split at hov
          · omega
          · omega
    · -- N.end ≤ x: m1 cannot be N, so m1 overlaps N: m1.laddr < N.end ≤ x
      rcases List.mem_cons.mp hm1 with he | he
      · subst he; omega
      · have hov := hover m1 he
        unfold chunkCmpRange at hov
        split at hov
        · omega
        · split at hov
          · omega
          · omega

theorem eraseChunkKey_comm (O : List ChunkMapping) (a : ChunkMapping)
    (t : List ChunkMapping) (h : ∀ c ∈ O, c.laddr ≠ a.laddr) :
    O.foldl (fun acc c => eraseChunkKey acc c.laddr) (a :: t) =
      a :: O.foldl (fun acc c => eraseChunkKey acc c.laddr) t := by
  induction O generalizing t with
  | nil => rfl
  | cons o orest ih =>
    simp only [List.foldl_cons]
    have he : eraseChunkKey (a :: t) o.laddr = a :: eraseChunkKey t o.laddr := by
      simp only [eraseChunkKey]
      rw [if_neg (fun hx => h o (by simp) hx.symm)]
    rw [he]
    exact ih _ (fun c hc => h c (by simp [hc]))

theorem erase_overlaps (l : List ChunkMapping) (p : ChunkMapping → Bool)
    (hs : chunksSorted l) :
    (l.filter p).foldl (fun acc c => eraseChunkKey acc c.laddr) l =
      l.filter (fun c => !(p c)) := by
  induction l with
  | nil => rfl
  | cons a t ih =>
    rcases List.pairwise_cons.mp hs with ⟨ha, ht⟩
    by_cases hp : p a
    · have hfp : (a :: t).filter p = a :: t.filter p := by
        simp [List.filter_cons, hp]
      have hfn : (a :: t).filter (fun c => !(p c)) = t.filter (fun c => !(p c)) := by
        simp [List.filter_cons, hp]
      rw [hfp, hfn]
      simp only [List.foldl_cons]
      have he : eraseChunkKey (a :: t) a.laddr = t := by
        unfold eraseChunkKey
        rw [if_pos rfl]
      rw [he]
      exact ih ht
    · have hfp : (a :: t).filter p = t.filter p := by
        simp [List.filter_cons, hp]
      have hfn : (a :: t).filter (fun c => !(p c)) = a :: t.filter (fun c => !(p c)) := by
        simp [List.filter_cons, hp]
      rw [hfp, hfn]
      rw [eraseChunkKey_comm _ a t (fun c hc => by
        have := ha c (List.mem_of_mem_filter hc)
        omega)]
      rw [ih ht]

theorem mem_rbInsertChunk (x v : ChunkMapping) (l : List ChunkMapping)
    (h : x ∈ rbInsertChunk v l) : x = v ∨ x ∈ l := by
  induction l with
  | nil => simpa [rbInsertChunk] using h
  | cons a t ih =>
    unfold rbInsertChunk at h
    by_cases h1 : v.laddr < a.laddr
    · rw [if_pos h1] at h
      simpa using h
    · rw [if_neg h1] at h
      by_cases h2 : v.laddr = a.laddr
      · rw [if_pos h2] at h
        rcases List.mem_cons.mp h with h | h
        · exact Or.inl h
        · exact Or.inr (by simp [h])
      · rw [if_neg h2] at h
        rcases List.mem_cons.mp h with h | h
        · exact Or.inr (by simp [h])
        · rcases ih h with h | h
          · exact Or.inl h
          · exact Or.inr (by simp [h])

theorem rbInsertChunk_sorted (v : ChunkMapping) (l : List ChunkMapping)
    (hs : chunksSorted l) : chunksSorted (rbInsertChunk v l) := by
  induction l with
  | nil => simp [rbInsertChunk, chunksSorted]
  | cons a t ih =>
    rcases List.pairwise_cons.mp hs with ⟨ha, ht⟩
    unfold rbInsertChunk
    by_cases h1 : v.laddr < a.laddr
    · rw [if_pos h1]
      refine List.pairwise_cons.mpr ⟨?_, hs⟩
      intro b hb
      rcases List.mem_cons.mp hb with hb | hb
      · subst hb; omega
      · have := ha b hb; omega
    · rw [if_neg h1]
      by_cases h2 : v.laddr = a.laddr
      · rw [if_pos h2]
        refine List.pairwise_cons.mpr ⟨?_, ht⟩
        intro b hb
        have := ha b hb; omega
      · rw [if_neg h2]
        refine List.pairwise_cons.mpr ⟨?_, ih ht⟩
        intro b hb
        rcases mem_rbInsertChunk b v t hb with hb | hb
        · subst hb; omega
        · exact ha b hb

theorem rbInsertChunk_pairwiseDisj (v : ChunkMapping) (l : List ChunkMapping)
    (hp : l.Pairwise chunkDisj) (hv : ∀ y ∈ l, chunkDisj v y) :
    (rbInsertChunk v l).Pairwise chunkDisj := by
  induction l with
  | nil => simp [rbInsertChunk]
  | cons a t ih =>
    rcases List.pairwise_cons.mp hp with ⟨hpa, hpt⟩
    unfold rbInsertChunk
    by_cases h1 : v.laddr < a.laddr
    · rw [if_pos h1]
      exact List.pairwise_cons.mpr ⟨fun b hb => hv b hb, hp⟩
    · rw [if_neg h1]
      by_cases h2 : v.laddr = a.laddr
      · rw [if_pos h2]
        exact List.pairwise_cons.mpr ⟨fun b hb => hv b (by simp [hb]), hpt⟩
      · rw [if_neg h2]
        refine List.pairwise_cons.mpr ⟨?_, ih hpt (fun y hy => hv y (by simp [hy]))⟩
        intro b hb
        rcases mem_rbInsertChunk b v t hb with hb | hb
        · rw [hb]
          exact chunkDisj_symm v a (hv a (by simp))
        · exact hpa b hb

theorem chunkUnion_range (a : ChunkMapping) (rest : List ChunkMapping)
    (U : ChunkMapping) (h : chunkUnion a rest = Except.ok U) :
    U.laddr = (a :: rest).foldl (fun b c => min b c.laddr) a.laddr ∧
    U.laddr + U.size =
      (a :: rest).foldl (fun e c => max e (c.laddr + c.size)) (a.laddr + a.size) := by
  unfold chunkUnion at h
  split at h
  · exact Except.noConfusion h
  · dsimp only at h
    split at h
    · exact Except.noConfusion h
    · cases hm : mergeFlags none ((a :: rest).map (fun c => c.flags)) with
      | error e => rw [hm] at h; exact Except.noConfusion h
      | ok fl =>
        rw [hm] at h
        have := Except.ok.inj h
        subst this
        constructor
        · rfl
        · dsimp only
          omega

theorem addMappingCommit_chunks (lv : LV) (m : Mapping) (dr : Bool)
    (nc : ChunkMapping) (ne : DevextMapping) (lo : List ChunkMapping)
    (po : List DevextMapping) :
    (addMappingCommit lv m dr nc ne lo po).2.chunks = lv.chunks ∨
    (addMappingCommit lv m dr nc ne lo po).2.chunks =
      rbInsertChunk nc (lo.foldl (fun acc c => eraseChunkKey acc c.laddr) lv.chunks) := by
  unfold addMappingCommit
  split
  · exact Or.inl rfl
  · split
    · exact Or.inl rfl
    · exact Or.inr rfl

theorem addMapping_chunks_cases (lv : LV) (m : Mapping) (dr : Bool) :
    (addMapping lv m dr).2.chunks = lv.chunks ∨
    ∃ U, chunkUnion (newChunkOf m)
        (lv.chunks.filter (fun c => chunkCmpRange (newChunkOf m) c = 0)) = Except.ok U ∧
      (addMapping lv m dr).2.chunks =
        rbInsertChunk U
          ((lv.chunks.filter (fun c => chunkCmpRange (newChunkOf m) c = 0)).foldl
            (fun acc c => eraseChunkKey acc c.laddr) lv.chunks) := by
  unfold addMapping
  dsimp only
  by_cases h0 : m.paddr.dev ∉ lv.devs
  · rw [if_pos h0]
    exact Or.inl rfl
  · rw [if_neg h0]
    cases hu : chunkUnion (newChunkOf m)
        (lv.chunks.filter (fun c => chunkCmpRange (newChunkOf m) c = 0)) with
    | error e =>
      simp only [hu]
      exact Or.inl trivial
    | ok nc =>
      simp only [hu]
      cases hd : devextUnion (newExtOf m)
          ((extsOf lv m.paddr.dev).filter (fun e => devextCmpRange (newExtOf m) e = 0)) with
      | error e =>
        simp only [hd]
        exact Or.inl trivial
      | ok ne =>
        simp only [hd]
        split
        · exact Or.inl rfl
        · split
          · rcases addMappingCommit_chunks lv m dr nc ne _ _ with hc | hc
            · exact Or.inl hc
            · exact Or.inr ⟨nc, rfl, hc⟩
          · split
            · split
              · exact Or.inl rfl
              · rcases addMappingCommit_chunks lv m dr nc ne _ _ with hc | hc
                · exact Or.inl hc
                · exact Or.inr ⟨nc, rfl, hc⟩
            · exact Or.inl rfl

theorem addMapping_chunks_inv (lv : LV) (m : Mapping) (dr : Bool)
    (h1 : chunksSorted lv.chunks) (h2 : lv.chunks.Pairwise chunkDisj) :
    chunksSorted (addMapping lv m dr).2.chunks ∧
      (addMapping lv m dr).2.chunks.Pairwise chunkDisj := by
  rcases addMapping_chunks_cases lv m dr with hc | ⟨U, hU, hc⟩
  · rw [hc]; exact ⟨h1, h2⟩
  · rw [hc]
    rw [erase_overlaps lv.chunks _ h1]
    have hsub : (lv.chunks.filter
        (fun c => !(decide (chunkCmpRange (newChunkOf m) c = 0)))).Sublist lv.chunks :=
      List.filter_sublist _
    have hsurv_sorted : chunksSorted (lv.chunks.filter
        (fun c => !(decide (chunkCmpRange (newChunkOf m) c = 0)))) :=
      h1.sublist hsub
    have hsurv_pair : (lv.chunks.filter
        (fun c => !(decide (chunkCmpRange (newChunkOf m) c = 0)))).Pairwise chunkDisj :=
      h2.sublist hsub
    refine ⟨rbInsertChunk_sorted U _ hsurv_sorted,
      rbInsertChunk_pairwiseDisj U _ hsurv_pair ?_⟩
    intro D hD
    intro x hx
    rcases hx with ⟨hxU, hxD⟩
    rcases chunkUnion_range (newChunkOf m) _ U hU with ⟨hbeg, hend⟩
    have hhull := chunk_hull_mem (newChunkOf m)
      (lv.chunks.filter (fun c => chunkCmpRange (newChunkOf m) c = 0))
      (fun c hcmem => by
        have := List.of_mem_filter hcmem
        simpa using this)
      x (by rw [← hbeg]; exact hxU.1) (by rw [← hend]; exact hxU.2)
    rcases hhull with ⟨mem, hmemin, hmemx⟩
    have hDfil := List.of_mem_filter hD
    simp only [Bool.not_eq_eq_eq_not, Bool.not_true, decide_eq_false_iff_not] at hDfil
    rcases List.mem_cons.mp hmemin with he | he
    · have hovD := chunkHas_overlap (newChunkOf m) D x (he ▸ hmemx) hxD
      exact hDfil hovD
    · have hmemlv : mem ∈ lv.chunks := List.mem_of_mem_filter he
      have hDlv : D ∈ lv.chunks := List.mem_of_mem_filter hD
      have hne : D ≠ mem := by
        intro heq
        have hmemp := List.of_mem_filter he
        rw [← heq] at hmemp
        simp only [decide_eq_true_eq] at hmemp
        exact hDfil hmemp
      have hdisj := List.Pairwise.forall
        (fun a b (h : chunkDisj a b) => chunkDisj_symm a b h) h2 hDlv hmemlv hne
      exact hdisj x ⟨hxD, hmemx⟩

theorem addPV_chunks (lv : LV) (id : Nat) :
    (addPhysicalVolume lv id).2.chunks = lv.chunks := by
  unfold addPhysicalVolume
  split <;> rfl

theorem runOps_chunks_inv (ops : List VolOp) (lv : LV)
    (h1 : chunksSorted lv.chunks) (h2 : lv.chunks.Pairwise chunkDisj) :
    chunksSorted (ops.foldl runOp lv).chunks ∧
      (ops.foldl runOp lv).chunks.Pairwise chunkDisj := by
  induction ops generalizing lv with
  | nil => exact ⟨h1, h2⟩
  | cons op rest ih =>
    simp only [List.foldl_cons]
    cases op with
    | addPV id =>
      refine ih (runOp lv (VolOp.addPV id)) ?_ ?_ <;>
        (show _ ; rw [show (runOp lv (VolOp.addPV id)).chunks = lv.chunks from addPV_chunks lv id]) <;>
        assumption
    | add m =>
      rcases addMapping_chunks_inv lv m false h1 h2 with ⟨ha, hb⟩
      exact ih _ ha hb
    | clear =>
      refine ih (clearMappings lv) ?_ ?_ <;> simp [clearMappings, chunksSorted]

/-- C5: after any sequence of `AddPhysicalVolume`, `AddMapping` and
`ClearMappings` calls from the empty engine, any two distinct chunk mappings
in the logical-to-physical index have disjoint `[laddr, laddr+size)`
ranges. -/
theorem c5_chunk_ranges_disjoint (ops : List VolOp) :
    ((runOps ops).chunks).Pairwise chunkDisj :=
  (runOps_chunks_inv ops LV.empty (by simp [LV.empty, chunksSorted])
    (by simp [LV.empty])).2

theorem mem_rbInsertExt (x a : DevextMapping) (l : List DevextMapping)
    (h : x ∈ rbInsertExt a l) : x = a ∨ x ∈ l := by
  induction l with
  | nil => simpa [rbInsertExt] using h
  | cons b t ih =>
    unfold rbInsertExt at h
    by_cases h1 : a.paddr < b.paddr
    · rw [if_pos h1] at h
      simpa using h
    · rw [if_neg h1] at h
      by_cases h2 : a.paddr = b.paddr
      · rw [if_pos h2] at h
        rcases List.mem_cons.mp h with h | h
        · exact Or.inl h
        · exact Or.inr (by simp [h])
      · rw [if_neg h2] at h
        rcases List.mem_cons.mp h with h | h
        · exact Or.inr (by simp [h])
        · rcases ih h with h | h
          · exact Or.inl h
          · exact Or.inr (by simp [h])

theorem mem_rbInsertExt_fresh (a : DevextMapping) (l : List DevextMapping)
    (hf : ∀ y ∈ l, y.paddr ≠ a.paddr) (x : DevextMapping) :
    x ∈ rbInsertExt a l ↔ x = a ∨ x ∈ l := by
  induction l with
  | nil => simp [rbInsertExt]
  | cons b t ih =>
    unfold rbInsertExt
    by_cases h1 : a.paddr < b.paddr
    · rw [if_pos h1]
      simp only [List.mem_cons]
    · rw [if_neg h1]
      by_cases h2 : a.paddr = b.paddr
      · exact absurd h2.symm (hf b (by simp))
      · rw [if_neg h2]
        simp only [List.mem_cons, ih (fun y hy => hf y (by simp [hy]))]
        tauto

theorem rbInsertExt_sorted (v : DevextMapping) (l : List DevextMapping)
    (hs : extsSorted l) : extsSorted (rbInsertExt v l) := by
  induction l with
  | nil => simp [rbInsertExt, extsSorted]
  | cons a t ih =>
    rcases List.pairwise_cons.mp hs with ⟨ha, ht⟩
    unfold rbInsertExt
    by_cases h1 : v.paddr < a.paddr
    · rw [if_pos h1]
      refine List.pairwise_cons.mpr ⟨?_, hs⟩
      intro b hb
      rcases List.mem_cons.mp hb with hb | hb
      · subst hb; omega
      · have := ha b hb; omega
    · rw [if_neg h1]
      by_cases h2 : v.paddr = a.paddr
      · rw [if_pos h2]
        refine List.pairwise_cons.mpr ⟨?_, ht⟩
        intro b hb
        have := ha b hb; omega
      · rw [if_neg h2]
        refine List.pairwise_cons.mpr ⟨?_, ih ht⟩
        intro b hb
        rcases mem_rbInsertExt b v t hb with hb | hb
        · rw [hb]; omega
        · exact ha b hb

theorem sortedExt_eq_of_mem_iff (l1 l2 : List DevextMapping)
    (h1 : extsSorted l1) (h2 : extsSorted l2)
    (hm : ∀ x, x ∈ l1 ↔ x ∈ l2) : l1 = l2 := by
  induction l1 generalizing l2 with
  | nil =>
    cases l2 with
    | nil => rfl
    | cons b t2 => exact absurd ((hm b).mpr (by simp)) (by simp)
  | cons a t1 ih =>
    cases l2 with
    | nil => exact absurd ((hm a).mp (by simp)) (by simp)
    | cons b t2 =>
      rcases List.pairwise_cons.mp h1 with ⟨ha, ht1⟩
      rcases List.pairwise_cons.mp h2 with ⟨hb, ht2⟩
      have hab : a = b := by
        rcases List.mem_cons.mp ((hm a).mp (by simp)) with he | he
        · exact he
        · rcases List.mem_cons.mp ((hm b).mpr (by simp)) with he2 | he2
          · exact he2.symm
          · have := hb a he
            have := ha b he2
            omega
      subst hab
      have htm : ∀ x, x ∈ t1 ↔ x ∈ t2 := by
        intro x
        constructor
        · intro hx
          rcases List.mem_cons.mp ((hm x).mp (by simp [hx])) with he | he
          · have := ha x hx
            rw [he] at this
            omega
          · exact he
        · intro hx
          rcases List.mem_cons.mp ((hm x).mpr (by simp [hx])) with he | he
          · have := hb x hx
            rw [he] at this
            omega
          · exact he
      rw [ih t2 ht1 ht2 htm]

theorem mem_rbInsertChunk_fresh (a : ChunkMapping) (l : List ChunkMapping)
    (hf : ∀ y ∈ l, y.laddr ≠ a.laddr) (x : ChunkMapping) :
    x ∈ rbInsertChunk a l ↔ x = a ∨ x ∈ l := by
  induction l with
  | nil => simp [rbInsertChunk]
  | cons b t ih =>
    unfold rbInsertChunk
    by_cases h1 : a.laddr < b.laddr
    · rw [if_pos h1]
      simp only [List.mem_cons]
    · rw [if_neg h1]
      by_cases h2 : a.laddr = b.laddr
      · exact absurd h2.symm (hf b (by simp))
      · rw [if_neg h2]
        simp only [List.mem_cons, ih (fun y hy => hf y (by simp [hy]))]
        tauto

theorem mergeFlags_single (f : Option Nat) : mergeFlags none [f] = Except.ok f := by
  cases f <;> rfl

theorem mergeFlagsExt_single (f : Option Nat) : mergeFlagsExt none [f] = Except.ok f := by
  cases f <;> rfl

theorem chunkUnion_nil (c : ChunkMapping) (p : QPA) (hp : c.paddrs = [p]) :
    chunkUnion c [] = Except.ok c := by
  obtain ⟨cl, cp, cs, ck, cf⟩ := c
  simp only at hp
  subst hp
  unfold chunkUnion
  rw [if_neg (by simp)]
  dsimp only
  rw [if_neg (by
    simp only [List.any_cons, List.any_nil, List.foldl_cons, List.foldl_nil,
      Bool.or_false, Bool.and_eq_true, decide_eq_true_eq]
    rintro ⟨h1, h2⟩
    apply h2
    omega)]
  rw [show (([ChunkMapping.mk cl [p] cs ck cf]).map (fun c => c.flags)) = [cf] from rfl]
  rw [mergeFlags_single]
  simp only [List.foldl_cons, List.foldl_nil, List.flatMap_cons, List.flatMap_nil,
    List.map_cons, List.map_nil, List.any_cons, List.any_nil, List.append_nil]
  congr 1
  simp only [ChunkMapping.mk.injEq]
  have hz : cl - min cl cl = 0 := by omega
  refine ⟨by omega, ?_, by omega, by simp, trivial⟩
  simp [sortQPAs, insertQPA, hz]

theorem devextUnion_nil (e : DevextMapping) : devextUnion e [] = Except.ok e := by
  obtain ⟨ep, el, es, ek, ef⟩ := e
  unfold devextUnion
  rw [if_neg (by simp)]
  dsimp only
  rw [if_neg (by
    simp only [List.any_cons, List.any_nil, List.foldl_cons, List.foldl_nil,
      Bool.or_false, Bool.and_eq_true, decide_eq_true_eq]
    rintro ⟨h1, h2⟩
    apply h2
    omega)]
  simp only [extLaddrLoop]
  rw [show (([DevextMapping.mk ep el es ek ef]).map (fun e => e.flags)) = [ef] from rfl]
  rw [mergeFlagsExt_single]
  simp only [List.foldl_cons, List.foldl_nil, List.any_cons, List.any_nil, if_true]
  congr 1
  simp only [DevextMapping.mk.injEq]
  refine ⟨by omega, by omega, by omega, by simp, trivial⟩

theorem findSet_same (es : List (Nat × List DevextMapping)) (dev : Nat)
    (l : List DevextMapping) (hk : dev ∈ es.map Prod.fst) :
    (es.map (fun p => if p.1 = dev then (dev, l) else p)).find? (fun p => p.1 = dev) =
      some (dev, l) := by
  induction es with
  | nil => simp at hk
  | cons a t ih =>
    simp only [List.map_cons]
    by_cases ha : a.1 = dev
    · rw [if_pos ha]
      simp [List.find?_cons]
    · rw [if_neg ha]
      rw [List.find?_cons_of_neg _ (by simpa using ha)]
      rw [List.map_cons] at hk
      rcases List.mem_cons.mp hk with hk2 | hk2
      · exact absurd hk2.symm ha
      · exact ih hk2

theorem findSet_ne (es : List (Nat × List DevextMapping)) (dev : Nat)
    (l : List DevextMapping) (d2 : Nat) (hne : d2 ≠ dev) :
    (es.map (fun p => if p.1 = dev then (dev, l) else p)).find? (fun p => p.1 = d2) =
      es.find? (fun p => p.1 = d2) := by
  induction es with
  | nil => rfl
  | cons a t ih =>
    simp only [List.map_cons]
    by_cases ha : a.1 = dev
    · rw [if_pos ha]
      rw [List.find?_cons_of_neg _ (by
        simp only [decide_eq_true_eq]
        exact fun he => hne he.symm)]
      rw [List.find?_cons_of_neg _ (by
        simp only [decide_eq_true_eq, ha]
        exact fun he => hne he.symm)]
      exact ih
    · rw [if_neg ha]
      by_cases hd : a.1 = d2
      · rw [List.find?_cons_of_pos _ (by simpa using hd),
          List.find?_cons_of_pos _ (by simpa using hd)]
      · rw [List.find?_cons_of_neg _ (by simpa using hd),
          List.find?_cons_of_neg _ (by simpa using hd)]
        exact ih

theorem extsOf_setExts_same (lv : LV) (dev : Nat) (l : List DevextMapping)
    (hk : dev ∈ lv.exts.map Prod.fst) : extsOf (setExts lv dev l) dev = l := by
  unfold extsOf setExts
  dsimp only
  rw [findSet_same lv.exts dev l hk]

theorem extsOf_setExts_ne (lv : LV) (dev : Nat) (l : List DevextMapping)
    (d2 : Nat) (hne : d2 ≠ dev) : extsOf (setExts lv dev l) d2 = extsOf lv d2 := by
  unfold extsOf setExts
  dsimp only
  rw [findSet_ne lv.exts dev l d2 hne]

theorem setExts_keys (lv : LV) (dev : Nat) (l : List DevextMapping) :
    (setExts lv dev l).exts.map Prod.fst = lv.exts.map Prod.fst := by
  unfold setExts
  dsimp only
  induction lv.exts with
  | nil => rfl
  | cons a t ih =>
    simp only [List.map_cons, ih]
    by_cases ha : a.1 = dev
    · rw [if_pos ha]
      simp [ha]
    · rw [if_neg ha]

theorem addMappingCommit_no_overlaps (lv : LV) (m : Mapping) (nc : ChunkMapping)
    (ne : DevextMapping) :
    addMappingCommit lv m false nc ne [] [] =
      (none, setExts { lv with chunks := rbInsertChunk nc lv.chunks } m.paddr.dev
        (rbInsertExt ne (extsOf lv m.paddr.dev))) := by
  unfold addMappingCommit
  rw [if_neg (by simp)]
  rw [if_neg (by simp)]
  simp only [List.foldl_nil]

theorem addMapping_no_overlaps (lv : LV) (m : Mapping)
    (hdev : m.paddr.dev ∈ lv.devs)
    (hlo : lv.chunks.filter (fun c => chunkCmpRange (newChunkOf m) c = 0) = [])
    (hpo : (extsOf lv m.paddr.dev).filter (fun e => devextCmpRange (newExtOf m) e = 0) = []) :
    addMapping lv m false =
      (none, setExts { lv with chunks := rbInsertChunk (newChunkOf m) lv.chunks }
        m.paddr.dev (rbInsertExt (newExtOf m) (extsOf lv m.paddr.dev))) := by
  unfold addMapping
  dsimp only
  rw [if_neg (not_not_intro hdev)]
  rw [hlo, hpo]
  rw [chunkUnion_nil (newChunkOf m) m.paddr rfl]
  rw [devextUnion_nil (newExtOf m)]
  dsimp only
  rw [if_neg (by simp [newChunkOf, newExtOf])]
  simp only [List.length_nil, List.map_nil, List.sum_nil]
  rw [if_pos trivial]
  rw [addMappingCommit_no_overlaps]

theorem find_append_none {α : Type} (p : α → Bool) (l1 l2 : List α)
    (h : l1.find? p = none) : (l1 ++ l2).find? p = l2.find? p := by
  induction l1 with
  | nil => rfl
  | cons a t ih =>
    cases hpa : p a with
    | true =>
      rw [List.find?_cons_of_pos _ hpa] at h
      exact Option.noConfusion h
    | false =>
      rw [List.find?_cons_of_neg _ (by simp [hpa])] at h
      rw [List.cons_append, List.find?_cons_of_neg _ (by simp [hpa])]
      exact ih h

theorem find_append_some {α : Type} (p : α → Bool) (l1 l2 : List α) (x : α)
    (h : l1.find? p = some x) : (l1 ++ l2).find? p = some x := by
  induction l1 with
  | nil => exact Option.noConfusion h
  | cons a t ih =>
    cases hpa : p a with
    | true =>
      rw [List.find?_cons_of_pos _ hpa] at h
      rw [List.cons_append, List.find?_cons_of_pos _ hpa]
      exact h
    | false =>
      rw [List.find?_cons_of_neg _ (by simp [hpa])] at h
      rw [List.cons_append, List.find?_cons_of_neg _ (by simp [hpa])]
      exact ih h

theorem mapSet_keys (acc : List (Nat × List DevextMapping)) (dev : Nat)
    (l : List DevextMapping) :
    ((acc.map (fun p => if p.1 = dev then (dev, l) else p)).map Prod.fst) =
      acc.map Prod.fst := by
  induction acc with
  | nil => rfl
  | cons a t ih =>
    simp only [List.map_cons, ih]
    by_cases ha : a.1 = dev
    · rw [if_pos ha]
      simp [ha]
    · rw [if_neg ha]

theorem assoc_any_iff (acc : List (Nat × List DevextMapping)) (dev : Nat) :
    acc.any (fun p => p.1 = dev) = true ↔ dev ∈ acc.map Prod.fst := by
  rw [List.any_eq_true]
  constructor
  · rintro ⟨p, hp, he⟩
    simp only [decide_eq_true_eq] at he
    exact he ▸ List.mem_map_of_mem Prod.fst hp
  · intro h
    rcases List.mem_map.mp h with ⟨p, hp, he⟩
    exact ⟨p, hp, by simp [he]⟩

theorem assocGet_assocSet_same (acc : List (Nat × List DevextMapping)) (dev : Nat)
    (l : List DevextMapping) : assocGet (assocSet acc dev l) dev = l := by
  unfold assocSet
  by_cases hc : acc.any (fun p => p.1 = dev) = true
  · rw [if_pos hc]
    unfold assocGet
    rw [findSet_same acc dev l ((assoc_any_iff acc dev).mp hc)]
  · rw [if_neg hc]
    unfold assocGet
    have hnone : acc.find? (fun p => p.1 = dev) = none := by
      rw [List.find?_eq_none]
      intro x hx hpx
      exact hc (List.any_eq_true.mpr ⟨x, hx, hpx⟩)
    rw [find_append_none _ acc _ hnone]
    simp [List.find?_cons]

theorem assocGet_assocSet_ne (acc : List (Nat × List DevextMapping)) (dev : Nat)
    (l : List DevextMapping) (d2 : Nat) (hne : d2 ≠ dev) :
    assocGet (assocSet acc dev l) d2 = assocGet acc d2 := by
  unfold assocSet
  by_cases hc : acc.any (fun p => p.1 = dev) = true
  · rw [if_pos hc]
    unfold assocGet
    rw [findSet_ne acc dev l d2 hne]
  · rw [if_neg hc]
    unfold assocGet
    cases hf : acc.find? (fun p => p.1 = d2) with
    | some p =>
      rw [find_append_some _ acc _ p hf]
    | none =>
      rw [find_append_none _ acc _ hf]
      rw [List.find?_cons_of_neg _ (by simpa using fun he => hne he.symm)]
      rfl

theorem assocSet_keys_mem (acc : List (Nat × List DevextMapping)) (dev : Nat)
    (l : List DevextMapping) (d : Nat) :
    d ∈ (assocSet acc dev l).map Prod.fst ↔ d = dev ∨ d ∈ acc.map Prod.fst := by
  unfold assocSet
  by_cases hc : acc.any (fun p => p.1 = dev) = true
  · rw [if_pos hc]
    have hdev := (assoc_any_iff acc dev).mp hc
    constructor
    · intro h
      rcases List.mem_map.mp h with ⟨p, hp, he⟩
      rcases List.mem_map.mp hp with ⟨q, hq, he2⟩
      by_cases hkey : q.1 = dev
      · rw [if_pos hkey] at he2
        subst he2
        exact Or.inl (by simpa using he.symm)
      · rw [if_neg hkey] at he2
        subst he2
        exact Or.inr (he ▸ List.mem_map_of_mem Prod.fst hq)
    · intro h
      rcases h with h | h
      · subst h
        rcases List.mem_map.mp hdev with ⟨q, hq, he2⟩
        exact List.mem_map.mpr ⟨(d, l), List.mem_map.mpr ⟨q, hq, by rw [if_pos he2]⟩, rfl⟩
      · rcases List.mem_map.mp h with ⟨q, hq, he2⟩
        by_cases hkey : q.1 = dev
        · exact List.mem_map.mpr ⟨(dev, l),
            List.mem_map.mpr ⟨q, hq, by rw [if_pos hkey]⟩, hkey.symm.trans he2⟩
        · exact List.mem_map.mpr ⟨q, List.mem_map.mpr ⟨q, hq, by rw [if_neg hkey]⟩, he2⟩
  · rw [if_neg hc]
    rw [List.map_append]
    simp only [List.mem_append, List.map_cons, List.map_nil, List.mem_singleton]
    tauto

theorem assocSet_keys_nodup (acc : List (Nat × List DevextMapping)) (dev : Nat)
    (l : List DevextMapping) (h : (acc.map Prod.fst).Nodup) :
    ((assocSet acc dev l).map Prod.fst).Nodup := by
  unfold assocSet
  by_cases hc : acc.any (fun p => p.1 = dev) = true
  · rw [if_pos hc]
    rw [mapSet_keys]
    exact h
  · rw [if_neg hc]
    rw [List.map_append]
    refine List.Nodup.append h (by simp) ?_
    intro x hx hy
    simp only [List.map_cons, List.map_nil, List.mem_singleton] at hy
    exact hc ((assoc_any_iff acc dev).mpr (hy ▸ hx))

theorem assoc_find_self (l : List (Nat × List DevextMapping))
    (hnd : (l.map Prod.fst).Nodup) (p : Nat × List DevextMapping) (hp : p ∈ l) :
    l.find? (fun q => q.1 = p.1) = some p := by
  induction l with
  | nil => simp at hp
  | cons a t ih =>
    rw [List.map_cons] at hnd
    rcases List.nodup_cons.mp hnd with ⟨ha, ht⟩
    rcases List.mem_cons.mp hp with hp2 | hp2
    · subst hp2
      simp [List.find?_cons]
    · have hne : a.1 ≠ p.1 := by
        intro he
        exact ha (he ▸ List.mem_map_of_mem Prod.fst hp2)
      rw [List.find?_cons_of_neg _ (by simpa using hne)]
      exact ih ht hp2

theorem addPV_state (lv : LV) (d : Nat) (hd : d ∉ lv.devs) :
    (addPhysicalVolume lv d).2 =
      { lv with devs := lv.devs ++ [d], exts := lv.exts ++ [(d, [])] } := by
  unfold addPhysicalVolume
  rw [if_neg hd]

theorem addDevs_go (ds : List Nat) : ∀ (base : List Nat), (base ++ ds).Nodup →
    (ds.foldl (fun s d => (addPhysicalVolume s d).2)
      { devs := base, chunks := [], exts := base.map (fun d => (d, [])) } : LV) =
    { devs := base ++ ds, chunks := [], exts := (base ++ ds).map (fun d => (d, [])) } := by
  induction ds with
  | nil =>
    intro base h
    simp
  | cons d rest ih =>
    intro base h
    simp only [List.foldl_cons]
    have hd : d ∉ base := fun hdb =>
      (List.disjoint_of_nodup_append h) hdb (by simp)
    rw [addPV_state _ d hd]
    dsimp only
    have hmap : (base.map (fun d => ((d : Nat), ([] : List DevextMapping)))) ++ [(d, [])] =
        (base ++ [d]).map (fun d => (d, [])) := by simp
    rw [hmap]
    have hnd2 : ((base ++ [d]) ++ rest).Nodup := by
      have he : base ++ d :: rest = (base ++ [d]) ++ rest := by simp
      rw [← he]
      exact h
    rw [ih (base ++ [d]) hnd2]
    simp

theorem addDevs_state (devs : List Nat) (hnd : devs.Nodup) :
    addDevs devs =
      { devs := devs, chunks := [], exts := devs.map (fun d => (d, [])) } := by
  unfold addDevs
  have h0 : (LV.empty : LV) =
      { devs := ([] : List Nat), chunks := [],
        exts := ([] : List Nat).map (fun d => (d, [])) } := rfl
  rw [h0]
  rw [addDevs_go devs [] (by simpa using hnd)]
  simp

theorem chunkCmpRange_newChunks_ne (m m2 : Mapping) (h : mapsLogicalDisjoint m2 m) :
    chunkCmpRange (newChunkOf m) (newChunkOf m2) ≠ 0 := by
  intro hz
  unfold chunkCmpRange newChunkOf at hz
  dsimp only at hz
  unfold mapsLogicalDisjoint at h
  split_ifs at hz with h1 h2
  all_goals omega

theorem devextCmpRange_newExts_ne (m m2 : Mapping) (hdev : m2.paddr.dev = m.paddr.dev)
    (h : mapsPhysicalDisjoint m2 m) :
    devextCmpRange (newExtOf m) (newExtOf m2) ≠ 0 := by
  intro hz
  unfold devextCmpRange newExtOf at hz
  dsimp only at hz
  have hph := h hdev
  split_ifs at hz with h1 h2
  all_goals omega

theorem laddr_ne_of_disjoint (m m2 : Mapping) (h : mapsLogicalDisjoint m2 m)
    (h1 : 0 < m.size) (h2 : 0 < m2.size) : m2.laddr ≠ m.laddr := by
  unfold mapsLogicalDisjoint at h
  omega

theorem paddr_ne_of_disjoint (m m2 : Mapping) (hdev : m2.paddr.dev = m.paddr.dev)
    (h : mapsPhysicalDisjoint m2 m) (h1 : 0 < m.size) (h2 : 0 < m2.size) :
    m2.paddr.addr ≠ m.paddr.addr := by
  have hph := h hdev
  omega

theorem runAdds_char (devs : List Nat) (rest : List Mapping) :
    ∀ (processed : List Mapping) (lv : LV),
    (processed ++ rest).Pairwise
      (fun a b => mapsLogicalDisjoint a b ∧ mapsPhysicalDisjoint a b) →
    (∀ m ∈ processed ++ rest, 0 < m.size) →
    (∀ m ∈ processed ++ rest, m.paddr.dev ∈ devs) →
    lv.devs = devs →
    lv.exts.map Prod.fst = devs →
    chunksSorted lv.chunks →
    (∀ x, x ∈ lv.chunks ↔ ∃ m ∈ processed, x = newChunkOf m) →
    (∀ d, extsSorted (extsOf lv d) ∧
      (∀ x, x ∈ extsOf lv d ↔ ∃ m ∈ processed, m.paddr.dev = d ∧ x = newExtOf m)) →
    (runAdds lv rest).devs = devs ∧
    (runAdds lv rest).exts.map Prod.fst = devs ∧
    chunksSorted (runAdds lv rest).chunks ∧
    (∀ x, x ∈ (runAdds lv rest).chunks ↔ ∃ m ∈ processed ++ rest, x = newChunkOf m) ∧
    (∀ d, extsSorted (extsOf (runAdds lv rest) d) ∧
      (∀ x, x ∈ extsOf (runAdds lv rest) d ↔
        ∃ m ∈ processed ++ rest, m.paddr.dev = d ∧ x = newExtOf m)) := by
  induction rest with
  | nil =>
    intro processed lv hdisj hsz hreg hdevs hkeys hcs hcm hext
    simp only [runAdds, List.foldl_nil, List.append_nil]
    exact ⟨hdevs, hkeys, hcs, hcm, hext⟩
  | cons m rest2 ih =>
    intro processed lv hdisj hsz hreg hdevs hkeys hcs hcm hext
    have hRm : ∀ m2 ∈ processed, mapsLogicalDisjoint m2 m ∧ mapsPhysicalDisjoint m2 m := by
      rcases List.pairwise_append.mp hdisj with ⟨hp1, hp2, hcross⟩
      exact fun m2 hm2 => hcross m2 hm2 m (by simp)
    have hmdev : m.paddr.dev ∈ devs := hreg m (by simp)
    have hmsz : 0 < m.size := hsz m (by simp)
    have hlo : lv.chunks.filter (fun c => chunkCmpRange (newChunkOf m) c = 0) = [] := by
      rw [List.filter_eq_nil_iff]
      intro c hc
      rcases (hcm c).mp hc with ⟨m2, hm2, he⟩
      subst he
      simp only [decide_eq_true_eq]
      exact chunkCmpRange_newChunks_ne m m2 (hRm m2 hm2).1
    have hpo : (extsOf lv m.paddr.dev).filter
        (fun e => devextCmpRange (newExtOf m) e = 0) = [] := by
      rw [List.filter_eq_nil_iff]
      intro e he
      rcases ((hext m.paddr.dev).2 e).mp he with ⟨m2, hm2, hd2, he2⟩
      subst he2
      simp only [decide_eq_true_eq]
      exact devextCmpRange_newExts_ne m m2 hd2 (hRm m2 hm2).2
    have hstep := addMapping_no_overlaps lv m (hdevs ▸ hmdev) hlo hpo
    have hrun : runAdds lv (m :: rest2) = runAdds (addMapping lv m false).2 rest2 := rfl
    have hlv2 : (addMapping lv m false).2 =
        setExts { lv with chunks := rbInsertChunk (newChunkOf m) lv.chunks }
          m.paddr.dev (rbInsertExt (newExtOf m) (extsOf lv m.paddr.dev)) := by
      rw [hstep]
    rw [hrun, hlv2]
    have happ : processed ++ m :: rest2 = (processed ++ [m]) ++ rest2 := by simp
    rw [happ]
    refine ih (processed ++ [m]) _ (by rw [← happ]; exact hdisj)
      (by rw [← happ]; exact hsz) (by rw [← happ]; exact hreg) hdevs ?_ ?_ ?_ ?_
    · rw [setExts_keys]
      exact hkeys
    · show chunksSorted (rbInsertChunk (newChunkOf m) lv.chunks)
      exact rbInsertChunk_sorted _ _ hcs
    · intro x
      show x ∈ rbInsertChunk (newChunkOf m) lv.chunks ↔ _
      rw [mem_rbInsertChunk_fresh (newChunkOf m) lv.chunks (fun y hy => by
        rcases (hcm y).mp hy with ⟨m2, hm2, he⟩
        subst he
        show (newChunkOf m2).laddr ≠ (newChunkOf m).laddr
        exact laddr_ne_of_disjoint m m2 (hRm m2 hm2).1 hmsz (hsz m2 (by simp [hm2]))) x]
      rw [hcm x]
      constructor
      · rintro (he | ⟨m2, hm2, he⟩)
        · exact ⟨m, by simp, he⟩
        · exact ⟨m2, by simp [hm2], he⟩
      · rintro ⟨m2, hm2, he⟩
        rcases List.mem_append.mp hm2 with hm2 | hm2
        · exact Or.inr ⟨m2, hm2, he⟩
        · rw [List.mem_singleton.mp hm2] at he
          exact Or.inl he
    · intro d
      by_cases hd : d = m.paddr.dev
      · subst hd
        have hsame : extsOf (setExts { lv with chunks := rbInsertChunk (newChunkOf m) lv.chunks }
            m.paddr.dev (rbInsertExt (newExtOf m) (extsOf lv m.paddr.dev))) m.paddr.dev =
            rbInsertExt (newExtOf m) (extsOf lv m.paddr.dev) := by
          apply extsOf_setExts_same
          show m.paddr.dev ∈ lv.exts.map Prod.fst
          rw [hkeys]
          exact hmdev
        rw [hsame]
        have hfresh : ∀ y ∈ extsOf lv m.paddr.dev, y.paddr ≠ (newExtOf m).paddr := by
          intro y hy
          rcases ((hext m.paddr.dev).2 y).mp hy with ⟨m2, hm2, hd2, he2⟩
          subst he2
          show (newExtOf m2).paddr ≠ (newExtOf m).paddr
          exact paddr_ne_of_disjoint m m2 hd2 (hRm m2 hm2).2 hmsz (hsz m2 (by simp [hm2]))
        refine ⟨rbInsertExt_sorted _ _ (hext m.paddr.dev).1, ?_⟩
        intro x
        rw [mem_rbInsertExt_fresh (newExtOf m) (extsOf lv m.paddr.dev) hfresh x]
        rw [(hext m.paddr.dev).2 x]
        constructor
        · rintro (he | ⟨m2, hm2, hd2, he⟩)
          · exact ⟨m, by simp, rfl, he⟩
          · exact ⟨m2, by simp [hm2], hd2, he⟩
        · rintro ⟨m2, hm2, hd2, he⟩
          rcases List.mem_append.mp hm2 with hm2 | hm2
          · exact Or.inr ⟨m2, hm2, hd2, he⟩
          · rw [List.mem_singleton.mp hm2] at he
            exact Or.inl he
      · have hne : extsOf (setExts { lv with chunks := rbInsertChunk (newChunkOf m) lv.chunks }
            m.paddr.dev (rbInsertExt (newExtOf m) (extsOf lv m.paddr.dev))) d =
            extsOf lv d := by
          rw [extsOf_setExts_ne _ _ _ d hd]
          rfl
        rw [hne]
        refine ⟨(hext d).1, ?_⟩
        intro x
        rw [(hext d).2 x]
        constructor
        · rintro ⟨m2, hm2, hd2, he⟩
          exact ⟨m2, by simp [hm2], hd2, he⟩
        · rintro ⟨m2, hm2, hd2, he⟩
          rcases List.mem_append.mp hm2 with hm2 | hm2
          · exact ⟨m2, hm2, hd2, he⟩
          · rw [List.mem_singleton.mp hm2] at hd2
            exact absurd hd2.symm hd

theorem mapsRel_symm :
    Symmetric (fun a b : Mapping => mapsLogicalDisjoint a b ∧ mapsPhysicalDisjoint a b) := by
  intro a b h
  refine ⟨?_, ?_⟩
  · unfold mapsLogicalDisjoint at *
    tauto
  · intro hd
    have := h.2 hd.symm
    tauto

theorem extOfChunk_newChunkOf (m : Mapping) (h : m.sizeLocked = false) :
    extOfChunk (newChunkOf m) m.paddr = newExtOf m := by
  unfold extOfChunk newChunkOf newExtOf
  rw [h]

theorem fsck_build_inv (devs : List Nat) (cs : List ChunkMapping) :
    ∀ (acc : List (Nat × List DevextMapping)),
    (∀ c ∈ cs, ∃ s, c.paddrs = [s] ∧ s.dev ∈ devs) →
    cs.Pairwise (fun c1 c2 => ∀ s1 s2, c1.paddrs = [s1] → c2.paddrs = [s2] →
        s1.dev = s2.dev → s1.addr ≠ s2.addr) →
    (∀ c ∈ cs, ∀ s, c.paddrs = [s] → ∀ y ∈ assocGet acc s.dev, y.paddr ≠ s.addr) →
    (∀ d, extsSorted (assocGet acc d)) →
    (acc.map Prod.fst).Nodup →
    ∃ built, cs.foldlM (fun a c => fsckChunk devs a c) acc = Except.ok built ∧
      (∀ d, extsSorted (assocGet built d)) ∧
      (∀ d x, x ∈ assocGet built d ↔ x ∈ assocGet acc d ∨
        ∃ c ∈ cs, ∃ s, c.paddrs = [s] ∧ s.dev = d ∧ x = extOfChunk c s) ∧
      (∀ d, d ∈ built.map Prod.fst ↔ d ∈ acc.map Prod.fst ∨
        ∃ c ∈ cs, ∃ s, c.paddrs = [s] ∧ s.dev = d) ∧
      (built.map Prod.fst).Nodup := by
  induction cs with
  | nil =>
    intro acc hshape hpair hfresh hsorted hnd
    exact ⟨acc, rfl, hsorted, by simp, by simp, hnd⟩
  | cons c cs2 ih =>
    intro acc hshape hpair hfresh hsorted hnd
    rcases hshape c (by simp) with ⟨s, hps, hsdev⟩
    have hchunk : fsckChunk devs acc c =
        Except.ok (assocSet acc s.dev (rbInsertExt (extOfChunk c s) (assocGet acc s.dev))) := by
      unfold fsckChunk
      rw [hps]
      simp [List.foldlM, fsckStripe, hsdev]
    have hheadrel := (List.pairwise_cons.mp hpair).1
    have hpair2 := (List.pairwise_cons.mp hpair).2
    have hsorted1 : ∀ d,
        extsSorted (assocGet (assocSet acc s.dev
          (rbInsertExt (extOfChunk c s) (assocGet acc s.dev))) d) := by
      intro d
      by_cases hd : d = s.dev
      · subst hd
        rw [assocGet_assocSet_same]
        exact rbInsertExt_sorted _ _ (hsorted _)
      · rw [assocGet_assocSet_ne _ _ _ d hd]
        exact hsorted d
    have hnd1 : ((assocSet acc s.dev
        (rbInsertExt (extOfChunk c s) (assocGet acc s.dev))).map Prod.fst).Nodup :=
      assocSet_keys_nodup _ _ _ hnd
    have hget1 : ∀ d x, x ∈ assocGet (assocSet acc s.dev
          (rbInsertExt (extOfChunk c s) (assocGet acc s.dev))) d ↔
        x ∈ assocGet acc d ∨ (s.dev = d ∧ x = extOfChunk c s) := by
      intro d x
      by_cases hd : d = s.dev
      · subst hd
        rw [assocGet_assocSet_same]
        rw [mem_rbInsertExt_fresh _ _ (fun y hy => hfresh c (by simp) s hps y hy) x]
        constructor
        · rintro (he | he)
          · exact Or.inr ⟨rfl, he⟩
          · exact Or.inl he
        · rintro (he | ⟨_, he⟩)
          · exact Or.inr he
          · exact Or.inl he
      · rw [assocGet_assocSet_ne _ _ _ d hd]
        constructor
        · exact Or.inl
        · rintro (he | ⟨hdd, _⟩)
          · exact he
          · exact absurd hdd (fun hh => hd hh.symm)
    have hfresh1 : ∀ c2 ∈ cs2, ∀ s2, c2.paddrs = [s2] →
        ∀ y ∈ assocGet (assocSet acc s.dev
          (rbInsertExt (extOfChunk c s) (assocGet acc s.dev))) s2.dev,
        y.paddr ≠ s2.addr := by
      intro c2 hc2 s2 hps2 y hy
      rcases (hget1 s2.dev y).mp hy with hy | ⟨hdd, hey⟩
      · exact hfresh c2 (by simp [hc2]) s2 hps2 y hy
      · subst hey
        have hne := hheadrel c2 hc2 s s2 hps hps2 hdd
        simpa [extOfChunk] using hne
    rcases ih (assocSet acc s.dev (rbInsertExt (extOfChunk c s) (assocGet acc s.dev)))
        (fun c2 hc2 => hshape c2 (by simp [hc2])) hpair2 hfresh1 hsorted1 hnd1 with
      ⟨built, hb, hbs, hbm, hbk, hbnd⟩
    refine ⟨built, ?_, hbs, ?_, ?_, hbnd⟩
    · rw [show (c :: cs2).foldlM (fun a c => fsckChunk devs a c) acc =
          fsckChunk devs acc c >>= fun a => cs2.foldlM (fun a c => fsckChunk devs a c) a
        from by simp [List.foldlM]]
      rw [hchunk]
      simpa using hb
    · intro d x
      rw [hbm d x]
      constructor
      · rintro (hx | ⟨c2, hc2, s2, hps2, hd2, he2⟩)
        · rcases (hget1 d x).mp hx with hx | ⟨hdd, he⟩
          · exact Or.inl hx
          · exact Or.inr ⟨c, by simp, s, hps, hdd, he⟩
        · exact Or.inr ⟨c2, by simp [hc2], s2, hps2, hd2, he2⟩
      · rintro (hx | ⟨c2, hc2, s2, hps2, hd2, he2⟩)
        · exact Or.inl ((hget1 d x).mpr (Or.inl hx))
        · rcases List.mem_cons.mp hc2 with hc2 | hc2
          · subst hc2
            rw [hps] at hps2
            injection hps2 with h1 _
            subst h1
            exact Or.inl ((hget1 d x).mpr (Or.inr ⟨hd2, he2⟩))
          · exact Or.inr ⟨c2, hc2, s2, hps2, hd2, he2⟩
    · intro d
      rw [hbk d]
      have hk1 : d ∈ (assocSet acc s.dev
          (rbInsertExt (extOfChunk c s) (assocGet acc s.dev))).map Prod.fst ↔
          d = s.dev ∨ d ∈ acc.map Prod.fst := assocSet_keys_mem acc s.dev _ d
      constructor
      · rintro (hx | ⟨c2, hc2, s2, hps2, hd2⟩)
        · rcases hk1.mp hx with he | hx
          · exact Or.inr ⟨c, by simp, s, hps, he.symm⟩
          · exact Or.inl hx
        · exact Or.inr ⟨c2, by simp [hc2], s2, hps2, hd2⟩
      · rintro (hx | ⟨c2, hc2, s2, hps2, hd2⟩)
        · exact Or.inl (hk1.mpr (Or.inr hx))
        · rcases List.mem_cons.mp hc2 with hc2 | hc2
          · subst hc2
            rw [hps] at hps2
            injection hps2 with h1 _
            subst h1
            exact Or.inl (hk1.mpr (Or.inl hd2.symm))
          · exact Or.inr ⟨c2, hc2, s2, hps2, hd2⟩

/-- C3 (counterexample): one successful size-locked `AddMapping` on a
registered device already breaks the claim: the incremental dev-extent index
records `SizeLocked = true`, the `fsck` reconstruction drops it, and `fsck`
reports a skew instead of succeeding. -/
theorem c3_sizelock_fsck_skew :
    (addMapping lvOneDev c3m false).1 = none ∧ fsck c3s = some VolErr.fsckSkew := by
  decide

/-- C3 (amended): after a sequence of `AddMapping` calls whose mappings have
positive size, `SizeLocked` clear, pairwise-disjoint logical and physical
ranges, live on registered devices, and cover every registered device with at
least one mapping, `fsck` succeeds: the reconstructed physical-to-logical
index agrees, device by device, with the one maintained incrementally. -/
theorem c3_fsck_reproduces (devs : List Nat) (ms : List Mapping)
    (hnd : devs.Nodup)
    (hsz : ∀ m ∈ ms, 0 < m.size)
    (hlock : ∀ m ∈ ms, m.sizeLocked = false)
    (hreg : ∀ m ∈ ms, m.paddr.dev ∈ devs)
    (hcover : ∀ d ∈ devs, ∃ m ∈ ms, m.paddr.dev = d)
    (hdisj : ms.Pairwise (fun a b => mapsLogicalDisjoint a b ∧ mapsPhysicalDisjoint a b)) :
    fsck (runAdds (addDevs devs) ms) = none := by
  have hstart := addDevs_state devs hnd
  have hextsOf0 : ∀ d, extsOf (addDevs devs) d = [] := by
    intro d
    rw [hstart]
    unfold extsOf
    dsimp only
    cases hf : (devs.map (fun d => (d, ([] : List DevextMapping)))).find?
        (fun p => p.1 = d) with
    | none => rfl
    | some p =>
      have hp := List.mem_of_find?_eq_some hf
      rcases List.mem_map.mp hp with ⟨d2, _, he⟩
      rw [← he]
  obtain ⟨hdevs2, hkeys2, hcs2, hcm2, hext2⟩ :=
    runAdds_char devs ms [] (addDevs devs) hdisj hsz hreg
      (by rw [hstart]) (by
        rw [hstart]
        show List.map Prod.fst (devs.map fun d => (d, ([] : List DevextMapping))) = devs
        rw [List.map_map,
          show (Prod.fst ∘ fun d : Nat => (d, ([] : List DevextMapping))) = id from rfl,
          List.map_id])
      (by rw [hstart]; exact List.Pairwise.nil)
      (by intro x; rw [hstart]; simp)
      (by
        intro d
        rw [hextsOf0 d]
        exact ⟨List.Pairwise.nil, by simp⟩)
  simp only [List.nil_append] at hcm2 hext2
  have hdf : ∀ m1 ∈ ms, ∀ m2 ∈ ms, m1 ≠ m2 →
      mapsLogicalDisjoint m1 m2 ∧ mapsPhysicalDisjoint m1 m2 := by
    intro m1 h1 m2 h2 hne
    exact hdisj.forall mapsRel_symm h1 h2 hne
  have hshape : ∀ c ∈ (runAdds (addDevs devs) ms).chunks,
      ∃ s, c.paddrs = [s] ∧ s.dev ∈ devs := by
    intro c hc
    rcases (hcm2 c).mp hc with ⟨m, hm, he⟩
    subst he
    exact ⟨m.paddr, rfl, hreg m hm⟩
  have hpairc : (runAdds (addDevs devs) ms).chunks.Pairwise
      (fun c1 c2 => ∀ s1 s2, c1.paddrs = [s1] → c2.paddrs = [s2] →
        s1.dev = s2.dev → s1.addr ≠ s2.addr) := by
    refine List.Pairwise.imp_of_mem ?_ hcs2
    intro c1 c2 hc1 hc2 hlt s1 s2 hp1 hp2 hdd
    rcases (hcm2 c1).mp hc1 with ⟨m1, hm1, he1⟩
    rcases (hcm2 c2).mp hc2 with ⟨m2, hm2, he2⟩
    subst he1
    subst he2
    have hs1 : s1 = m1.paddr := by
      injection (show ([m1.paddr] : List QPA) = [s1] from hp1) with h _
      exact h.symm
    have hs2 : s2 = m2.paddr := by
      injection (show ([m2.paddr] : List QPA) = [s2] from hp2) with h _
      exact h.symm
    subst hs1
    subst hs2
    have hne : m1 ≠ m2 := by
      intro he
      rw [he] at hlt
      exact lt_irrefl _ hlt
    exact paddr_ne_of_disjoint m2 m1 hdd (hdf m1 hm1 m2 hm2 hne).2
      (hsz m2 hm2) (hsz m1 hm1)
  have hfresh0 : ∀ c ∈ (runAdds (addDevs devs) ms).chunks, ∀ s, c.paddrs = [s] →
      ∀ y ∈ assocGet [] s.dev, y.paddr ≠ s.addr := by
    intro c hc s hs y hy
    simp [assocGet] at hy
  have hsorted0 : ∀ d, extsSorted (assocGet [] d) := by
    intro d
    exact List.Pairwise.nil
  rcases fsck_build_inv devs (runAdds (addDevs devs) ms).chunks [] hshape hpairc
      hfresh0 hsorted0 (by simp) with ⟨built, hb, hbs, hbm, hbk, hbnd⟩
  have hmemb : ∀ d x, x ∈ assocGet built d ↔ x ∈ extsOf (runAdds (addDevs devs) ms) d := by
    intro d x
    rw [hbm d x]
    constructor
    · rintro (hx | ⟨c, hc, s, hps, hd, he⟩)
      · simp [assocGet] at hx
      · rcases (hcm2 c).mp hc with ⟨m, hm, hcm'⟩
        subst hcm'
        have hs : s = m.paddr := by
          injection (show ([m.paddr] : List QPA) = [s] from hps) with h _
          exact h.symm
        subst hs
        refine ((hext2 d).2 x).mpr ⟨m, hm, hd, ?_⟩
        rw [he, extOfChunk_newChunkOf m (hlock m hm)]
    · intro hx
      rcases ((hext2 d).2 x).mp hx with ⟨m, hm, hdm, he⟩
      refine Or.inr ⟨newChunkOf m, (hcm2 _).mpr ⟨m, hm, rfl⟩, m.paddr, rfl, hdm, ?_⟩
      rw [he, extOfChunk_newChunkOf m (hlock m hm)]
  have hperdev : ∀ p ∈ (runAdds (addDevs devs) ms).exts, assocGet built p.1 = p.2 := by
    intro p hp
    have hkn : ((runAdds (addDevs devs) ms).exts.map Prod.fst).Nodup := by
      rw [hkeys2]
      exact hnd
    have hfind : (runAdds (addDevs devs) ms).exts.find? (fun q => q.1 = p.1) = some p :=
      assoc_find_self _ hkn p hp
    have hpe : extsOf (runAdds (addDevs devs) ms) p.1 = p.2 := by
      unfold extsOf
      rw [hfind]
    rw [← hpe]
    exact sortedExt_eq_of_mem_iff _ _ (hbs p.1) ((hext2 p.1).1) (hmemb p.1)
  have hlen : (runAdds (addDevs devs) ms).exts.length = built.length := by
    have h1 : ((runAdds (addDevs devs) ms).exts.map Prod.fst).length = devs.length := by
      rw [hkeys2]
    have hsub1 : (built.map Prod.fst) ⊆ devs := by
      intro d hd
      rcases (hbk d).mp hd with hd0 | ⟨c, hc, s, hps, hdd⟩
      · simp at hd0
      · rcases (hcm2 c).mp hc with ⟨m, hm, he⟩
        subst he
        have hs : s = m.paddr := by
          injection (show ([m.paddr] : List QPA) = [s] from hps) with h _
          exact h.symm
        subst hs
        rw [← hdd]
        exact hreg m hm
    have hsub2 : devs ⊆ built.map Prod.fst := by
      intro d hd
      rcases hcover d hd with ⟨m, hm, hdm⟩
      exact (hbk d).mpr (Or.inr ⟨newChunkOf m, (hcm2 _).mpr ⟨m, hm, rfl⟩, m.paddr, rfl, hdm⟩)
    have hle1 := (List.Nodup.subperm hbnd hsub1).length_le
    have hle2 := (List.Nodup.subperm hnd hsub2).length_le
    have h2 := List.length_map built Prod.fst
    have h3 := List.length_map (runAdds (addDevs devs) ms).exts Prod.fst
    omega
  have hall : (runAdds (addDevs devs) ms).exts.all
      (fun p => assocGet built p.1 = p.2) = true := by
    rw [List.all_eq_true]
    intro p hp
    exact decide_eq_true (hperdev p hp)
  unfold fsck
  rw [hdevs2, hb]
  show (if (runAdds (addDevs devs) ms).exts.length ≠ built.length then some VolErr.fsckSkew
    else if (runAdds (addDevs devs) ms).exts.all (fun p => assocGet built p.1 = p.2)
      then none else some VolErr.fsckSkew) = none
  rw [if_neg (not_not_intro hlen), if_pos hall]

/-- C3 (witness): one device, one unlocked mapping; `fsck` succeeds. -/
theorem c3_fsck_witness : fsck (runAdds (addDevs [1]) [c3ok]) = none :=
  c3_fsck_reproduces [1] [c3ok] (by decide) (by decide) (by decide) (by decide)
    (by decide) (by simp)

theorem qpaCmp_self (a : QPA) : qpaCmp a a = 0 := by
  unfold qpaCmp
  split_ifs <;> omega

theorem qpaCmp_asymm (a b : QPA) (h : qpaCmp a b < 0) : ¬ qpaCmp b a < 0 := by
  unfold qpaCmp at h ⊢
  split_ifs at h ⊢ <;> omega

theorem qpaCmp_trans (a b c : QPA) (h1 : qpaCmp a b < 0) (h2 : qpaCmp b c < 0) :
    qpaCmp a c < 0 := by
  unfold qpaCmp at h1 h2 ⊢
  split_ifs at h1 h2 ⊢ <;> omega

theorem qpaCmp_total (a b : QPA) (h1 : ¬ qpaCmp a b < 0) (h2 : qpaCmp a b ≠ 0) :
    qpaCmp b a < 0 := by
  unfold qpaCmp at h1 h2 ⊢
  split_ifs at h1 h2 ⊢ <;> omega

theorem insertQPA_sorted (y : QPA) (l : List QPA)
    (h : l.Pairwise (fun a b => qpaCmp a b < 0)) :
    (insertQPA y l).Pairwise (fun a b => qpaCmp a b < 0) := by
  induction l with
  | nil => simp [insertQPA]
  | cons a t ih =>
    rcases List.pairwise_cons.mp h with ⟨ha, ht⟩
    unfold insertQPA
    by_cases h1 : qpaCmp y a < 0
    · rw [if_pos h1]
      refine List.pairwise_cons.mpr ⟨?_, h⟩
      intro b hb
      rcases List.mem_cons.mp hb with hb | hb
      · subst hb
        exact h1
      · exact qpaCmp_trans y a b h1 (ha b hb)
    · rw [if_neg h1]
      by_cases h2 : qpaCmp y a = 0
      · rw [if_pos h2]
        exact h
      · rw [if_neg h2]
        refine List.pairwise_cons.mpr ⟨?_, ih ht⟩
        intro b hb
        rcases (mem_insertQPA b y t).mp hb with hb | hb
        · rw [hb]
          exact qpaCmp_total y a h1 h2
        · exact ha b hb

theorem sortQPAs_fold_sorted (l acc : List QPA)
    (h : acc.Pairwise (fun a b => qpaCmp a b < 0)) :
    (l.foldl (fun a y => insertQPA y a) acc).Pairwise (fun a b => qpaCmp a b < 0) := by
  induction l generalizing acc with
  | nil => simpa using h
  | cons a rest ih =>
    simp only [List.foldl_cons]
    exact ih _ (insertQPA_sorted a acc h)

theorem sortQPAs_sorted (l : List QPA) :
    (sortQPAs l).Pairwise (fun a b => qpaCmp a b < 0) :=
  sortQPAs_fold_sorted l [] (by simp)

theorem qpa_sorted_eq_of_mem_iff (l1 l2 : List QPA)
    (h1 : l1.Pairwise (fun a b => qpaCmp a b < 0))
    (h2 : l2.Pairwise (fun a b => qpaCmp a b < 0))
    (hm : ∀ x, x ∈ l1 ↔ x ∈ l2) : l1 = l2 := by
  induction l1 generalizing l2 with
  | nil =>
    cases l2 with
    | nil => rfl
    | cons b t2 => exact absurd ((hm b).mpr (by simp)) (by simp)
  | cons a t1 ih =>
    cases l2 with
    | nil => exact absurd ((hm a).mp (by simp)) (by simp)
    | cons b t2 =>
      rcases List.pairwise_cons.mp h1 with ⟨ha, ht1⟩
      rcases List.pairwise_cons.mp h2 with ⟨hb, ht2⟩
      have hab : a = b := by
        rcases List.mem_cons.mp ((hm a).mp (by simp)) with he | he
        · exact he
        · rcases List.mem_cons.mp ((hm b).mpr (by simp)) with he2 | he2
          · exact he2.symm
          · exact absurd (hb a he) (qpaCmp_asymm a b (ha b he2))
      subst hab
      have htm : ∀ x, x ∈ t1 ↔ x ∈ t2 := by
        intro x
        constructor
        · intro hx
          rcases List.mem_cons.mp ((hm x).mp (by simp [hx])) with he | he
          · have hlt := ha x hx
            rw [he] at hlt
            have h0 := qpaCmp_self a
            omega
          · exact he
        · intro hx
          rcases List.mem_cons.mp ((hm x).mpr (by simp [hx])) with he | he
          · have hlt := hb x hx
            rw [he] at hlt
            have h0 := qpaCmp_self a
            omega
          · exact he
      rw [ih t2 ht1 ht2 htm]

theorem filter_eq_singleton {α : Type} (l : List α) (p : α → Bool) (u : α)
    (hnd : l.Nodup) (hu : u ∈ l) (hpu : p u = true)
    (ho : ∀ y ∈ l, p y = true → y = u) : l.filter p = [u] := by
  induction l with
  | nil => simp at hu
  | cons a t ih =>
    rw [List.nodup_cons] at hnd
    rcases List.mem_cons.mp hu with he | hu2
    · subst he
      rw [List.filter_cons, if_pos hpu]
      have ht : t.filter p = [] := by
        rw [List.filter_eq_nil_iff]
        intro y hy hpy
        exact hnd.1 ((ho y (by simp [hy]) hpy) ▸ hy)
      rw [ht]
    · have hpa : p a = false := by
        cases hpab : p a with
        | false => rfl
        | true => exact absurd ((ho a (by simp) hpab) ▸ hu2) hnd.1
      rw [List.filter_cons, if_neg (by simp [hpa])]
      exact ih hnd.2 hu2 (fun y hy hpy => ho y (by simp [hy]) hpy)

theorem rbInsertChunk_self (v : ChunkMapping) (l : List ChunkMapping) :
    v ∈ rbInsertChunk v l := by
  induction l with
  | nil => simp [rbInsertChunk]
  | cons a t ih =>
    unfold rbInsertChunk
    split_ifs
    · simp
    · simp
    · exact List.mem_cons.mpr (Or.inr ih)

theorem rbInsertExt_self (v : DevextMapping) (l : List DevextMapping) :
    v ∈ rbInsertExt v l := by
  induction l with
  | nil => simp [rbInsertExt]
  | cons a t ih =>
    unfold rbInsertExt
    split_ifs
    · simp
    · simp
    · exact List.mem_cons.mpr (Or.inr ih)

theorem eraseExtKey_comm (O : List DevextMapping) (a : DevextMapping)
    (t : List DevextMapping) (h : ∀ e ∈ O, e.paddr ≠ a.paddr) :
    O.foldl (fun acc e => eraseExtKey acc e.paddr) (a :: t) =
      a :: O.foldl (fun acc e => eraseExtKey acc e.paddr) t := by
  induction O generalizing t with
  | nil => rfl
  | cons o orest ih =>
    simp only [List.foldl_cons]
    have he : eraseExtKey (a :: t) o.paddr = a :: eraseExtKey t o.paddr := by
      simp only [eraseExtKey]
      rw [if_neg (fun hx => h o (by simp) hx.symm)]
    rw [he]
    exact ih _ (fun e he2 => h e (by simp [he2]))

theorem erase_overlaps_ext (l : List DevextMapping) (p : DevextMapping → Bool)
    (hs : extsSorted l) :
    (l.filter p).foldl (fun acc e => eraseExtKey acc e.paddr) l =
      l.filter (fun e => !(p e)) := by
  induction l with
  | nil => rfl
  | cons a t ih =>
    rcases List.pairwise_cons.mp hs with ⟨ha, ht⟩
    by_cases hp : p a
    · have hfp : (a :: t).filter p = a :: t.filter p := by
        simp [List.filter_cons, hp]
      have hfn : (a :: t).filter (fun e => !(p e)) = t.filter (fun e => !(p e)) := by
        simp [List.filter_cons, hp]
      rw [hfp, hfn]
      simp only [List.foldl_cons]
      have he : eraseExtKey (a :: t) a.paddr = t := by
        unfold eraseExtKey
        rw [if_pos rfl]
      rw [he]
      exact ih ht
    · have hfp : (a :: t).filter p = t.filter p := by
        simp [List.filter_cons, hp]
      have hfn : (a :: t).filter (fun e => !(p e)) = a :: t.filter (fun e => !(p e)) := by
        simp [List.filter_cons, hp]
      rw [hfp, hfn]
      rw [eraseExtKey_comm _ a t (fun e he2 => by
        have := ha e (List.mem_of_mem_filter he2)
        omega)]
      rw [ih ht]

theorem mergeFlags_some_fixed (w : Nat) (fs : List (Option Nat)) (fl : Option Nat)
    (h : mergeFlags (some w) fs = Except.ok fl) : fl = some w := by
  induction fs with
  | nil => exact (Except.ok.inj h).symm
  | cons f t ih =>
    cases f with
    | none => exact ih h
    | some v =>
      simp only [mergeFlags] at h
      split at h
      · exact Except.noConfusion h
      · exact ih h

theorem mergeFlagsExt_some_fixed (w : Nat) (fs : List (Option Nat)) (fl : Option Nat)
    (h : mergeFlagsExt (some w) fs = Except.ok fl) : fl = some w := by
  induction fs with
  | nil => exact (Except.ok.inj h).symm
  | cons f t ih =>
    cases f with
    | none => exact ih h
    | some v =>
      simp only [mergeFlagsExt] at h
      split at h
      · exact Except.noConfusion h
      · exact ih h

theorem mergeFlags_repeat (f : Option Nat) (fs : List (Option Nat)) (fl : Option Nat)
    (h : mergeFlags none (f :: fs) = Except.ok fl) :
    mergeFlags none [f, fl] = Except.ok fl := by
  cases f with
  | none =>
    rw [show mergeFlags none [none, fl] = mergeFlags none [fl] from rfl, mergeFlags_single]
  | some w =>
    have hfl : fl = some w := mergeFlags_some_fixed w fs fl h
    subst hfl
    simp [mergeFlags]

theorem mergeFlagsExt_repeat (f : Option Nat) (fs : List (Option Nat)) (fl : Option Nat)
    (h : mergeFlagsExt none (f :: fs) = Except.ok fl) :
    mergeFlagsExt none [f, fl] = Except.ok fl := by
  cases f with
  | none =>
    rw [show mergeFlagsExt none [none, fl] = mergeFlagsExt none [fl] from rfl,
      mergeFlagsExt_single]
  | some w =>
    have hfl : fl = some w := mergeFlagsExt_some_fixed w fs fl h
    subst hfl
    simp [mergeFlagsExt]

theorem devextUnion_range (a : DevextMapping) (rest : List DevextMapping)
    (E : DevextMapping) (h : devextUnion a rest = Except.ok E) :
    E.paddr = (a :: rest).foldl (fun b e => min b e.paddr) a.paddr ∧
    E.paddr + E.size =
      (a :: rest).foldl (fun x e => max x (e.paddr + e.size)) (a.paddr + a.size) := by
  unfold devextUnion at h
  split at h
  · exact Except.noConfusion h
  · dsimp only at h
    split at h
    · exact Except.noConfusion h
    · cases hla : extLaddrLoop ((a :: rest).foldl (fun b e => min b e.paddr) a.paddr)
          true 0 (a :: rest) with
      | error e => rw [hla] at h; exact Except.noConfusion h
      | ok la =>
        rw [hla] at h
        cases hm : mergeFlagsExt none ((a :: rest).map (fun e => e.flags)) with
        | error e => rw [hm] at h; exact Except.noConfusion h
        | ok fl =>
          rw [hm] at h
          have := Except.ok.inj h
          subst this
          constructor
          · rfl
          · dsimp only
            omega

theorem qpa_map_shift_self (b : Int) (l : List QPA) :
    l.map (fun s => QPA.mk s.dev (s.addr + -(b - b))) = l := by
  induction l with
  | nil => rfl
  | cons s t ih =>
    obtain ⟨d, x⟩ := s
    have hx : QPA.mk d (x + -(b - b)) = QPA.mk d x := by
      rw [QPA.mk.injEq]
      exact ⟨rfl, by omega⟩
    simp only [List.map_cons, ih, hx]

theorem chunkUnion_repeat (a : ChunkMapping) (O : List ChunkMapping) (U : ChunkMapping)
    (hsz : 0 < a.size) (h : chunkUnion a O = Except.ok U) :
    chunkUnion a [U] = Except.ok U := by
  have hf1 := (foldl_min_spec (fun c => c.laddr) (a :: O) a.laddr).1.1
  have hf2 := (foldl_max_spec (fun c => c.laddr + c.size) (a :: O) (a.laddr + a.size)).1.1
  unfold chunkUnion at h
  split at h
  next hsan => exact Except.noConfusion h
  next hsan =>
    dsimp only at h
    split at h
    next hlok => exact Except.noConfusion h
    next hlok =>
      set beg := (a :: O).foldl (fun b c => min b c.laddr) a.laddr with hbeg
      set endv := (a :: O).foldl (fun e c => max e (c.laddr + c.size)) (a.laddr + a.size)
        with hendv
      set PP := sortQPAs ((a :: O).flatMap (fun c =>
        c.paddrs.map (fun s => QPA.mk s.dev (s.addr + -(c.laddr - beg))))) with hPPd
      set SL := (a :: O).any (fun c => c.sizeLocked) with hSLd
      cases hm : mergeFlags none ((a :: O).map (fun c => c.flags)) with
      | error e => rw [hm] at h; exact Except.noConfusion h
      | ok fl =>
        rw [hm] at h
        have hU := Except.ok.inj h
        subst hU
        have hcmp : chunkCmpRange a (ChunkMapping.mk beg PP (endv - beg) SL fl) = 0 := by
          unfold chunkCmpRange
          dsimp only
          rw [if_neg (by omega), if_neg (by omega)]
        unfold chunkUnion
        rw [if_neg (by simp [hcmp])]
        dsimp only
        have g1 : (a :: [ChunkMapping.mk beg PP (endv - beg) SL fl]).foldl
            (fun b c => min b c.laddr) a.laddr = beg := by
          simp only [List.foldl_cons, List.foldl_nil]
          rw [min_self]
          exact min_eq_right hf1
        have g2 : (a :: [ChunkMapping.mk beg PP (endv - beg) SL fl]).foldl
            (fun e c => max e (c.laddr + c.size)) (a.laddr + a.size) = endv := by
          simp only [List.foldl_cons, List.foldl_nil]
          rw [max_self, show beg + (endv - beg) = endv from by omega]
          exact max_eq_right hf2
        rw [g1, g2]
        have hla2 : (a.sizeLocked && decide (endv - beg ≠ a.size)) = false := by
          cases hcase : (a.sizeLocked && decide (endv - beg ≠ a.size)) with
          | false => rfl
          | true => exact absurd (by simp only [List.any_cons, hcase, Bool.true_or]) hlok
        rw [if_neg (by
          simp only [List.any_cons, List.any_nil, Bool.or_false]
          rw [hla2]
          simp)]
        have hPP2 : sortQPAs ((a :: [ChunkMapping.mk beg PP (endv - beg) SL fl]).flatMap
            (fun c => c.paddrs.map (fun s => QPA.mk s.dev (s.addr + -(c.laddr - beg))))) =
            PP := by
          apply qpa_sorted_eq_of_mem_iff _ _ (sortQPAs_sorted _)
            (by rw [hPPd]; exact sortQPAs_sorted _)
          intro x
          rw [mem_sortQPAs]
          simp only [List.flatMap_cons, List.flatMap_nil, List.append_nil, List.mem_append]
          constructor
          · rintro (hx | hx)
            · rw [hPPd, mem_sortQPAs]
              exact List.mem_flatMap.mpr ⟨a, by simp, hx⟩
            · rwa [qpa_map_shift_self] at hx
          · intro hx
            right
            rw [qpa_map_shift_self]
            exact hx
        have hm' : mergeFlags none (a.flags :: O.map (fun c => c.flags)) = Except.ok fl := by
          simpa using hm
        have hmr := mergeFlags_repeat a.flags (O.map (fun c => c.flags)) fl hm'
        rw [show ((a :: [ChunkMapping.mk beg PP (endv - beg) SL fl]).map (fun c => c.flags))
            = [a.flags, fl] from rfl]
        rw [hmr]
        dsimp only
        rw [hPP2]
        rw [show ((a :: [ChunkMapping.mk beg PP (endv - beg) SL fl]).any
            (fun c => c.sizeLocked)) = (a.sizeLocked || (SL || false)) from rfl]
        rw [show (a.sizeLocked || (SL || false)) = SL from by
          rw [hSLd]
          cases ha : a.sizeLocked <;> simp [List.any_cons, ha]]

theorem devextUnion_repeat (a : DevextMapping) (P : List DevextMapping) (E : DevextMapping)
    (hsz : 0 < a.size) (h : devextUnion a P = Except.ok E) :
    devextUnion a [E] = Except.ok E := by
  have hf1 := (foldl_min_spec (fun e => e.paddr) (a :: P) a.paddr).1.1
  have hf2 := (foldl_max_spec (fun e => e.paddr + e.size) (a :: P) (a.paddr + a.size)).1.1
  unfold devextUnion at h
  split at h
  next hsan => exact Except.noConfusion h
  next hsan =>
    dsimp only at h
    split at h
    next hlok => exact Except.noConfusion h
    next hlok =>
      set beg := (a :: P).foldl (fun b e => min b e.paddr) a.paddr with hbeg
      set endv := (a :: P).foldl (fun x e => max x (e.paddr + e.size)) (a.paddr + a.size)
        with hendv
      set SL := (a :: P).any (fun e => e.sizeLocked) with hSLd
      cases hla : extLaddrLoop beg true 0 (a :: P) with
      | error e2 => rw [hla] at h; exact Except.noConfusion h
      | ok la =>
        rw [hla] at h
        cases hm : mergeFlagsExt none ((a :: P).map (fun e => e.flags)) with
        | error e2 => rw [hm] at h; exact Except.noConfusion h
        | ok fl =>
          rw [hm] at h
          have hE := Except.ok.inj h
          subst hE
          have hcmp : devextCmpRange a (DevextMapping.mk beg la (endv - beg) SL fl) = 0 := by
            unfold devextCmpRange
            dsimp only
            rw [if_neg (by omega), if_neg (by omega)]
          unfold devextUnion
          rw [if_neg (by simp [hcmp])]
          dsimp only
          have g1 : (a :: [DevextMapping.mk beg la (endv - beg) SL fl]).foldl
              (fun b e => min b e.paddr) a.paddr = beg := by
            simp only [List.foldl_cons, List.foldl_nil]
            rw [min_self]
            exact min_eq_right hf1
          have g2 : (a :: [DevextMapping.mk beg la (endv - beg) SL fl]).foldl
              (fun x e => max x (e.paddr + e.size)) (a.paddr + a.size) = endv := by
            simp only [List.foldl_cons, List.foldl_nil]
            rw [max_self, show beg + (endv - beg) = endv from by omega]
            exact max_eq_right hf2
          rw [g1, g2]
          have hla2 : (a.sizeLocked && decide (endv - beg ≠ a.size)) = false := by
            cases hcase : (a.sizeLocked && decide (endv - beg ≠ a.size)) with
            | false => rfl
            | true => exact absurd (by simp only [List.any_cons, hcase, Bool.true_or]) hlok
          rw [if_neg (by
            simp only [List.any_cons, List.any_nil, Bool.or_false]
            rw [hla2]
            simp)]
          have hloop : extLaddrLoop beg true 0
              (a :: [DevextMapping.mk beg la (endv - beg) SL fl]) = Except.ok la := by
            simp [extLaddrLoop]
          rw [hloop]
          have hm' : mergeFlagsExt none (a.flags :: P.map (fun e => e.flags)) =
              Except.ok fl := by
            simpa using hm
          have hmr := mergeFlagsExt_repeat a.flags (P.map (fun e => e.flags)) fl hm'
          rw [show ((a :: [DevextMapping.mk beg la (endv - beg) SL fl]).map
              (fun e => e.flags)) = [a.flags, fl] from rfl]
          rw [hmr]
          dsimp only
          rw [show ((a :: [DevextMapping.mk beg la (endv - beg) SL fl]).any
              (fun e => e.sizeLocked)) = (a.sizeLocked || (SL || false)) from rfl]
          rw [show (a.sizeLocked || (SL || false)) = SL from by
            rw [hSLd]
            cases ha : a.sizeLocked <;> simp [List.any_cons, ha]]

theorem extsOf_lvOneDev (dev : Nat) : extsOf lvOneDev dev = [] := by
  unfold extsOf
  cases hf : lvOneDev.exts.find? (fun p => p.1 = dev) with
  | none => rfl
  | some p =>
    have hp := List.mem_of_find?_eq_some hf
    rw [show lvOneDev.exts = [(1, ([] : List DevextMapping))] from rfl] at hp
    simp only [List.mem_singleton] at hp
    rw [hp]

theorem lvOneDev_wf : LVWF lvOneDev := by
  refine ⟨List.Pairwise.nil, fun dev => ?_⟩
  rw [extsOf_lvOneDev dev]
  exact List.Pairwise.nil

theorem c7_commit_aux (lv : LV) (m : Mapping) (lv1 : LV) (U : ChunkMapping)
    (E : DevextMapping)
    (hwf : LVWF lv) (hsz : 0 < m.size) (hkey : m.paddr.dev ∈ lv.exts.map Prod.fst)
    (hdev : m.paddr.dev ∈ lv.devs) (hneq : lv1 ≠ lv)
    (hU : chunkUnion (newChunkOf m)
      (lv.chunks.filter (fun c => chunkCmpRange (newChunkOf m) c = 0)) = Except.ok U)
    (hE : devextUnion (newExtOf m)
      ((extsOf lv m.paddr.dev).filter (fun e => devextCmpRange (newExtOf m) e = 0)) =
      Except.ok E)
    (hfl : U.flags = E.flags)
    (hcommit : addMappingCommit lv m false U E
      (lv.chunks.filter (fun c => chunkCmpRange (newChunkOf m) c = 0))
      ((extsOf lv m.paddr.dev).filter (fun e => devextCmpRange (newExtOf m) e = 0)) =
      (none, lv1)) :
    (addMapping lv1 m false).2 = lv1 := by
  have hcmpU : chunkCmpRange (newChunkOf m) U = 0 := by
    have hr := chunkUnion_range _ _ _ hU
    have hmin := (foldl_min_spec (fun c => c.laddr)
      (newChunkOf m :: lv.chunks.filter (fun c => chunkCmpRange (newChunkOf m) c = 0))
      (newChunkOf m).laddr).1.1
    have hmax := (foldl_max_spec (fun c => c.laddr + c.size)
      (newChunkOf m :: lv.chunks.filter (fun c => chunkCmpRange (newChunkOf m) c = 0))
      ((newChunkOf m).laddr + (newChunkOf m).size)).1.1
    have h1 : U.laddr ≤ (newChunkOf m).laddr := hr.1.le.trans hmin
    have h2 : (newChunkOf m).laddr + (newChunkOf m).size ≤ U.laddr + U.size :=
      hmax.trans hr.2.ge
    have hsz' : 0 < (newChunkOf m).size := hsz
    unfold chunkCmpRange
    rw [if_neg (by omega), if_neg (by omega)]
  have hcmpE : devextCmpRange (newExtOf m) E = 0 := by
    have hr := devextUnion_range _ _ _ hE
    have hmin := (foldl_min_spec (fun e => e.paddr)
      (newExtOf m :: (extsOf lv m.paddr.dev).filter
        (fun e => devextCmpRange (newExtOf m) e = 0))
      (newExtOf m).paddr).1.1
    have hmax := (foldl_max_spec (fun e => e.paddr + e.size)
      (newExtOf m :: (extsOf lv m.paddr.dev).filter
        (fun e => devextCmpRange (newExtOf m) e = 0))
      ((newExtOf m).paddr + (newExtOf m).size)).1.1
    have h1 : E.paddr ≤ (newExtOf m).paddr := hr.1.le.trans hmin
    have h2 : (newExtOf m).paddr + (newExtOf m).size ≤ E.paddr + E.size :=
      hmax.trans hr.2.ge
    have hsz' : 0 < (newExtOf m).size := hsz
    unfold devextCmpRange
    rw [if_neg (by omega), if_neg (by omega)]
  unfold addMappingCommit at hcommit
  rw [if_neg (by simp)] at hcommit
  by_cases hopt : lv.chunks.filter (fun c => chunkCmpRange (newChunkOf m) c = 0) = [U] ∧
      (extsOf lv m.paddr.dev).filter (fun e => devextCmpRange (newExtOf m) e = 0) = [E]
  · rw [if_pos hopt] at hcommit
    exact absurd (congrArg Prod.snd hcommit).symm hneq
  · rw [if_neg hopt] at hcommit
    dsimp only at hcommit
    injection hcommit with hfst hlv1'
    have hlv1 := hlv1'.symm
    have hch : lv1.chunks = rbInsertChunk U
        (lv.chunks.filter (fun c => !(decide (chunkCmpRange (newChunkOf m) c = 0)))) := by
      rw [hlv1]
      show rbInsertChunk U _ = _
      rw [erase_overlaps lv.chunks _ hwf.1]
    have hex : extsOf lv1 m.paddr.dev = rbInsertExt E
        ((extsOf lv m.paddr.dev).filter
          (fun e => !(decide (devextCmpRange (newExtOf m) e = 0)))) := by
      rw [hlv1]
      rw [extsOf_setExts_same
        { devs := lv.devs,
          chunks := rbInsertChunk U
            (List.foldl (fun acc c => eraseChunkKey acc c.laddr) lv.chunks
              (lv.chunks.filter (fun c => chunkCmpRange (newChunkOf m) c = 0))),
          exts := lv.exts }
        m.paddr.dev _ hkey]
      rw [erase_overlaps_ext (extsOf lv m.paddr.dev) _ (hwf.2 m.paddr.dev)]
    have hdev1 : m.paddr.dev ∈ lv1.devs := by
      rw [hlv1]
      exact hdev
    have hO' : lv1.chunks.filter (fun c => chunkCmpRange (newChunkOf m) c = 0) = [U] := by
      rw [hch]
      apply filter_eq_singleton
      · have hs : chunksSorted (rbInsertChunk U
            (lv.chunks.filter (fun c => !(decide (chunkCmpRange (newChunkOf m) c = 0))))) :=
          rbInsertChunk_sorted _ _ (List.Pairwise.filter _ hwf.1)
        exact hs.imp (fun hlt he => absurd (he ▸ hlt) (lt_irrefl _))
      · exact rbInsertChunk_self U _
      · simp [hcmpU]
      · intro y hy hpy
        rcases mem_rbInsertChunk y U _ hy with he | he
        · exact he
        · have hf := (List.mem_filter.mp he).2
          simp only [decide_eq_true_eq] at hpy
          simp only [Bool.not_eq_true', decide_eq_false_iff_not] at hf
          exact absurd hpy hf
    have hP' : (extsOf lv1 m.paddr.dev).filter
        (fun e => devextCmpRange (newExtOf m) e = 0) = [E] := by
      rw [hex]
      apply filter_eq_singleton
      · have hs : extsSorted (rbInsertExt E
            ((extsOf lv m.paddr.dev).filter
              (fun e => !(decide (devextCmpRange (newExtOf m) e = 0))))) :=
          rbInsertExt_sorted _ _ (List.Pairwise.filter _ (hwf.2 m.paddr.dev))
        exact hs.imp (fun hlt he => absurd (he ▸ hlt) (lt_irrefl _))
      · exact rbInsertExt_self E _
      · simp [hcmpE]
      · intro y hy hpy
        rcases mem_rbInsertExt y E _ hy with he | he
        · exact he
        · have hf := (List.mem_filter.mp he).2
          simp only [decide_eq_true_eq] at hpy
          simp only [Bool.not_eq_true', decide_eq_false_iff_not] at hf
          exact absurd hpy hf
    unfold addMapping
    rw [if_neg (not_not_intro hdev1)]
    dsimp only
    rw [hO']
    simp only [chunkUnion_repeat (newChunkOf m) _ U hsz hU]
    rw [hP']
    simp only [devextUnion_repeat (newExtOf m) _ E hsz hE]
    rw [if_neg (not_not_intro hfl)]
    split_ifs with hc1 hc2 hc3
    · show (addMappingCommit lv1 m false U E [U] [E]).2 = lv1
      simp [addMappingCommit]
    · rfl
    · show (addMappingCommit lv1 m false U E [U] [E]).2 = lv1
      simp [addMappingCommit]
    · rfl

/-- C7 (amended): if `AddMapping(m)` succeeds, from a well-formed engine whose
per-device extent tree exists for `m`'s device and with `m` of positive size,
then an immediate second `AddMapping(m)` leaves the engine state exactly as
after the first call — whether the second call succeeds (hitting the
skip-rewrite optimization) or returns an error. -/
theorem c7_repeat_add_mapping (lv : LV) (m : Mapping) (lv1 : LV)
    (hwf : LVWF lv) (hsz : 0 < m.size) (hkey : m.paddr.dev ∈ lv.exts.map Prod.fst)
    (h1 : addMapping lv m false = (none, lv1)) :
    (addMapping lv1 m false).2 = lv1 := by
  by_cases hid : lv1 = lv
  · subst hid
    rw [h1]
  · unfold addMapping at h1
    split at h1
    next hdev => exact absurd h1 (by simp)
    next hdev =>
      dsimp only at h1
      cases hU : chunkUnion (newChunkOf m)
          (lv.chunks.filter (fun c => chunkCmpRange (newChunkOf m) c = 0)) with
      | error e => simp only [hU] at h1; exact absurd h1 (by simp)
      | ok U =>
        simp only [hU] at h1
        cases hE : devextUnion (newExtOf m)
            ((extsOf lv m.paddr.dev).filter
              (fun e => devextCmpRange (newExtOf m) e = 0)) with
        | error e => simp only [hE] at h1; exact absurd h1 (by simp)
        | ok E =>
          simp only [hE] at h1
          by_cases hfl : U.flags ≠ E.flags
          · rw [if_pos hfl] at h1
            exact absurd h1 (by simp)
          · rw [if_neg hfl] at h1
            have hfleq : U.flags = E.flags := not_not.mp hfl
            have hdev' : m.paddr.dev ∈ lv.devs := not_not.mp hdev
            split at h1
            next hc1 =>
              exact c7_commit_aux lv m lv1 U E hwf hsz hkey hdev' hid hU hE hfleq h1
            next hc1 =>
              split at h1
              next hc2 =>
                split at h1
                next hc3 => exact absurd h1 (by simp)
                next hc3 =>
                  exact c7_commit_aux lv m lv1 U E hwf hsz hkey hdev' hid hU hE hfleq h1
              next hc2 => exact absurd h1 (by simp)

/-- C7 (counterexample): `c7m1` is accepted on top of `c7m0` (merging into a
two-stripe chunk with non-RAID DATA flags), but repeating the same
`AddMapping(c7m1)` immediately afterwards is rejected with the
multiple-stripes error instead of succeeding. -/
theorem c7_repeat_not_accepted :
    (addMapping c7s1 c7m1 false).1 = none ∧
    (addMapping c7s2 c7m1 false).1 = some VolErr.multipleStripesNotAllowed := by
  decide

/-- C7 (witness): a first mapping on a fresh one-device engine, added twice;
the second call leaves the state unchanged. -/
theorem c7_witness :
    (addMapping (addMapping lvOneDev c7m0 false).2 c7m0 false).2 =
      (addMapping lvOneDev c7m0 false).2 :=
  c7_repeat_add_mapping lvOneDev c7m0 (addMapping lvOneDev c7m0 false).2
    lvOneDev_wf (by decide) (by decide) (by decide)

end Btrfs
